import Mathlib

/-!
# Verification of the pipeline-parallel resharding core (`pp_reshard.py`)

This file gives a shallow embedding of the layer-segmentation and
canonical-naming engine of `paddlenlp/trainer/utils/reshard/pp_reshard.py`
and proves (or refutes) the specification claims about it.

Modelling conventions:
* Python `OrderedDict` becomes an association list (`List (κ × α)`) with
  insert-or-update semantics (`odSet`): an existing key keeps its position
  and gets the new value, a new key is appended.
* Python `assert` / `KeyError` / `IndexError` become `Option` results
  (`none` = the Python code raises).
* Machine integers are `Nat` (all quantities in the source are nonnegative
  counters and list indices); the renaming counter, which starts at `-1`,
  is an `Int`.
* Python string comparison (used by `sorted(..., key=lambda x: x[1])`) is
  lexicographic on code points, which coincides with `String` order in Lean
  on these names; `sorted` is stable, modelled by `List.insertionSort`
  with a non-strict key order (stable for equal keys).
-/

namespace PPReshard

/-- Insert-or-update for the association-list model of `OrderedDict`:
`d[k] = v` keeps the position of an existing key `k` and overwrites its
value, otherwise appends `(k, v)`. -/
def odSet {κ α : Type} [DecidableEq κ] : List (κ × α) → κ → α → List (κ × α)
  | [], k, v => [(k, v)]
  | (k', v') :: t, k, v =>
    if k' = k then (k', v) :: t else (k', v') :: odSet t k v

/-- Ordered-dictionary lookup (`d[k]` / `k in d`). -/
def odGet {κ α : Type} [DecidableEq κ] : List (κ × α) → κ → Option α
  | [], _ => none
  | (k', v') :: t, k => if k' = k then some v' else odGet t k

/-- Build an ordered dictionary from a list of pairs by repeated
assignment (`for (k, v) in l: d[k] = v`). -/
def odFromList {κ α : Type} [DecidableEq κ] (l : List (κ × α)) : List (κ × α) :=
  l.foldl (fun d p => odSet d p.1 p.2) []

/-! ## Segmentation planner (`PipeLineSegmentContext._segment`)

`segment_uniform` fills `result[0] = 0`, then
`result[i] = min(result[i-1] + part_size + offset, layer_num)` for
`i = 1 .. stage_num-1` where `offset = 1` iff `i > stage_num - extra_layers`,
and finally `result[stage_num] = layer_num`.  Each loop iteration reads only
the previous slot, so the array is modelled as `boundary` applied to
`0 .. stage_num`. -/

/-- The boundary value `result[i]` computed by `segment_uniform`. -/
def uniformBoundary (layer_num stage_num : Nat) : Nat → Nat
  | 0 => 0
  | i + 1 =>
    if i + 1 = stage_num then layer_num
    else
      let part_size := layer_num / stage_num
      let extra_layers := layer_num % stage_num
      let offset := if stage_num - extra_layers < i + 1 then 1 else 0
      min (uniformBoundary layer_num stage_num i + part_size + offset) layer_num

/-- `segment_uniform` from `PipeLineSegmentContext._segment`: the list
`result` of `stage_num + 1` boundary points. -/
def segment_uniform (layer_num stage_num : Nat) : List Nat :=
  (List.range (stage_num + 1)).map (uniformBoundary layer_num stage_num)

/-- The weight list of `segment_by_layer`: `weights = [0] * layer_num`,
then `weights[i] = 1` for `i in range(1, layer_num - 2)`. -/
def byLayerWeights (layer_num : Nat) : List Nat :=
  (List.range layer_num).map (fun i => if 1 ≤ i ∧ i + 2 < layer_num then 1 else 0)

/-- The accumulation loop of `segment_by_layer`:
`for idx, weight in enumerate(weights): memory_counter += weight;
if memory_counter == part_size: result[result_idx] = idx + 1; result_idx += 1;
memory_counter = 0`.  A write `result[result_idx]` with
`result_idx ≥ len(result)` raises `IndexError`, modelled as `none`. -/
def segLoop (part_size : Nat) :
    List Nat → Nat → List Nat → Nat → Nat → Option (List Nat × Nat × Nat)
  | [], _, res, ridx, mem => some (res, ridx, mem)
  | w :: ws, idx, res, ridx, mem =>
    let mem' := mem + w
    if mem' = part_size then
      if ridx < res.length then
        segLoop part_size ws (idx + 1) (res.set ridx (idx + 1)) (ridx + 1) 0
      else none
    else segLoop part_size ws (idx + 1) res ridx mem'

/-- `segment_by_layer` from `PipeLineSegmentContext._segment`.  Returns
`none` when the Python code raises `IndexError` on `result[result_idx]`. -/
def segment_by_layer (layer_num stage_num : Nat) : Option (List Nat) :=
  let weights := byLayerWeights layer_num
  let part_size := weights.sum / stage_num
  (segLoop part_size weights 0 (List.replicate (stage_num + 1) 0) 1 0).map
    (fun r => r.1.set stage_num layer_num)

/-- The boundary list chosen by `_segment`:
`segment_uniform() if segment_method == "uniform" else segment_by_layer()`. -/
def segmentBoundaries (segment_method : String) (layer_num stage_num : Nat) :
    Option (List Nat) :=
  if segment_method = "uniform" then some (segment_uniform layer_num stage_num)
  else segment_by_layer layer_num stage_num

/-- The scatter loop of `_segment`:
`for i in range(stage_num): index_segments[i % pp_degree].append((result[i], result[i+1]))`. -/
def scatterStep (pp_degree : Nat) (buckets : List (List (Nat × Nat)))
    (p : Nat × (Nat × Nat)) : List (List (Nat × Nat)) :=
  buckets.set (p.1 % pp_degree) ((buckets.getD (p.1 % pp_degree) []) ++ [p.2])

def scatterRanges (pp_degree : Nat) (ranges : List (Nat × Nat)) :
    List (List (Nat × Nat)) :=
  (ranges.enum).foldl (scatterStep pp_degree) (List.replicate pp_degree [])

/-- Consecutive boundary pairs `(result[i], result[i+1])` for `i < stage_num`. -/
def boundaryRanges (result : List Nat) : List (Nat × Nat) :=
  result.zip result.tail

/-- `PipeLineSegmentContext._segment`: per-physical-stage lists of
half-open ordinal ranges. -/
def segmentFn (segment_method : String) (layer_num pp_degree vpp_degree : Nat) :
    Option (List (List (Nat × Nat))) :=
  (segmentBoundaries segment_method layer_num (pp_degree * vpp_degree)).map
    (fun result => scatterRanges pp_degree (boundaryRanges result))

/-! ## Closed form of the uniform boundaries -/

/-- Closed form of `segment_uniform`'s boundary array: the `min` clamp in
the loop never binds, and boundary `i` is `i * part_size` plus one extra
unit for each of the last `extra_layers` partitions already passed. -/
theorem uniformBoundary_closed (ln sn : Nat) (hsn : 0 < sn) :
    ∀ i, i ≤ sn →
      uniformBoundary ln sn i = i * (ln / sn) + (i - (sn - ln % sn)) := by
  intro i
  induction i with
  | zero => intro _; simp [uniformBoundary]
  | succ n ih =>
    intro hi
    have hn : n ≤ sn := Nat.le_of_succ_le hi
    have ihn := ih hn
    have hr : ln % sn < sn := Nat.mod_lt _ hsn
    have hdm : sn * (ln / sn) + ln % sn = ln := Nat.div_add_mod ln sn
    by_cases hend : n + 1 = sn
    · rw [uniformBoundary, if_pos hend]
      have hmul : (n + 1) * (ln / sn) = sn * (ln / sn) := by rw [hend]
      omega
    · have hlt : n + 1 < sn := Nat.lt_of_le_of_ne hi hend
      rw [uniformBoundary, if_neg hend]
      dsimp only
      rw [ihn]
      have hA : (n + 1) * (ln / sn) = n * (ln / sn) + ln / sn := Nat.succ_mul ..
      have hmul : (n + 1) * (ln / sn) ≤ sn * (ln / sn) :=
        Nat.mul_le_mul_right _ (Nat.le_of_lt hlt)
      rw [Nat.min_def]
      by_cases hoff : sn - ln % sn < n + 1
      · rw [if_pos hoff]
        split <;> omega
      · rw [if_neg hoff]
        split <;> omega

/-- `result[i]` of the boundary list, as `getD`. -/
theorem segment_uniform_getD (ln sn i : Nat) (hi : i ≤ sn) :
    (segment_uniform ln sn).getD i 0 = uniformBoundary ln sn i := by
  unfold segment_uniform
  rw [List.getD_eq_getElem?_getD, List.getElem?_map, List.getElem?_range
    (by omega : i < sn + 1)]
  rfl

/-- Size of the `i`-th (1-based) uniform partition: `base` for the first
`stage_num - extra` partitions, `base + 1` for the last `extra`. -/
theorem uniform_partition_size (ln sn : Nat) (hsn : 0 < sn) (i : Nat)
    (h1 : 1 ≤ i) (h2 : i ≤ sn) :
    (segment_uniform ln sn).getD i 0 - (segment_uniform ln sn).getD (i - 1) 0 =
      (if i ≤ sn - ln % sn then ln / sn else ln / sn + 1) := by
  obtain ⟨j, rfl⟩ : ∃ j, i = j + 1 := ⟨i - 1, by omega⟩
  rw [segment_uniform_getD ln sn _ h2, segment_uniform_getD ln sn _ (by omega)]
  simp only [Nat.add_sub_cancel]
  rw [uniformBoundary_closed ln sn hsn _ h2,
    uniformBoundary_closed ln sn hsn _ (by omega)]
  have hr : ln % sn < sn := Nat.mod_lt _ hsn
  generalize ln / sn = q at *
  generalize ln % sn = r at *
  have hA : (j + 1) * q = j * q + q := Nat.succ_mul ..
  by_cases hoff : j + 1 ≤ sn - r
  · rw [if_pos hoff]; omega
  · rw [if_neg hoff]; omega

/-! ## Coverage counting -/

/-- How many of the ranges `rs` contain the ordinal `x`. -/
def rangeCount (x : Nat) (rs : List (Nat × Nat)) : Nat :=
  rs.countP (fun ab => decide (ab.1 ≤ x ∧ x < ab.2))

/-- Total number of segments containing `x`, over all stages. -/
def stageRangeCount (x : Nat) (buckets : List (List (Nat × Nat))) : Nat :=
  (buckets.map (rangeCount x)).sum

theorem rangeCount_append (x : Nat) (l₁ l₂ : List (Nat × Nat)) :
    rangeCount x (l₁ ++ l₂) = rangeCount x l₁ + rangeCount x l₂ :=
  List.countP_append ..

theorem rangeCount_singleton (x a b : Nat) :
    rangeCount x [(a, b)] = if a ≤ x ∧ x < b then 1 else 0 := by
  simp only [rangeCount, List.countP_cons, List.countP_nil]
  by_cases h : a ≤ x ∧ x < b
  · rw [if_pos h]; simp [h]
  · rw [if_neg h]; simp [h]

theorem chain'_getD_zero_le_last :
    ∀ (l : List Nat), List.Chain' (· ≤ ·) l →
      l.getD 0 0 ≤ l.getD (l.length - 1) 0 := by
  intro l
  induction l with
  | nil => simp
  | cons a t ih =>
    intro hch
    cases t with
    | nil => simp
    | cons c t' =>
      obtain ⟨hac, hch'⟩ := List.chain'_cons.mp hch
      have := ih hch'
      simp only [List.getD_cons_zero, List.length_cons, Nat.add_sub_cancel] at this ⊢
      rw [List.getD_cons_succ]
      simp only [List.length_cons] at *
      omega

/-- For a `≤`-chain of boundaries, every ordinal is contained in exactly
one consecutive-pair range iff it lies between the first and the last
boundary. -/
theorem chain_rangeCount (x : Nat) :
    ∀ (b : List Nat), List.Chain' (· ≤ ·) b →
      rangeCount x (boundaryRanges b) =
        if b.getD 0 0 ≤ x ∧ x < b.getD (b.length - 1) 0 then 1 else 0 := by
  intro b
  induction b with
  | nil =>
    intro _
    simp only [boundaryRanges, rangeCount, List.zip_nil_left, List.countP_nil,
      List.getD_nil]
    have : ¬((0 : Nat) ≤ x ∧ x < 0) := by omega
    rw [if_neg this]
  | cons a t ih =>
    intro hch
    cases t with
    | nil =>
      have : ¬(a ≤ x ∧ x < a) := by omega
      simp only [boundaryRanges, List.tail_cons, List.zip_nil_right, rangeCount,
        List.countP_nil, List.length_cons, List.length_nil, Nat.zero_add,
        Nat.sub_self, Nat.add_sub_cancel, List.getD_cons_zero]
      rw [if_neg this]
    | cons c t' =>
      obtain ⟨hac, hch'⟩ := List.chain'_cons.mp hch
      have ihc := ih hch'
      have hcl := chain'_getD_zero_le_last (c :: t') hch'
      have hstep : rangeCount x (boundaryRanges (a :: c :: t')) =
          rangeCount x [(a, c)] + rangeCount x (boundaryRanges (c :: t')) := by
        have hbr : boundaryRanges (a :: c :: t') = (a, c) :: boundaryRanges (c :: t') := rfl
        rw [hbr]
        simp only [rangeCount, List.countP_cons, List.countP_nil]
        omega
      rw [hstep, ihc, rangeCount_singleton]
      simp only [List.getD_cons_zero, List.length_cons, Nat.add_sub_cancel] at hcl ⊢
      rw [List.getD_cons_succ]
      split_ifs <;> omega

theorem sum_map_set_append (x : Nat) :
    ∀ (bs : List (List (Nat × Nat))) (k : Nat) (a : Nat × Nat), k < bs.length →
      ((bs.set k ((bs.getD k []) ++ [a])).map (rangeCount x)).sum =
        (bs.map (rangeCount x)).sum + rangeCount x [a] := by
  intro bs
  induction bs with
  | nil => intro k a h; simp at h
  | cons b bs ih =>
    intro k a hk
    cases k with
    | zero =>
      simp only [List.set_cons_zero, List.getD_cons_zero, List.map_cons,
        List.sum_cons, rangeCount_append]
      omega
    | succ k' =>
      simp only [List.set_cons_succ, List.getD_cons_succ, List.map_cons,
        List.sum_cons]
      have hk' : k' < bs.length := by simp at hk; omega
      have := ih k' a hk'
      omega

theorem scatterStep_length (pp : Nat) (bs : List (List (Nat × Nat)))
    (p : Nat × (Nat × Nat)) : (scatterStep pp bs p).length = bs.length := by
  simp [scatterStep]

theorem scatter_fold_sum (x pp : Nat) (hpp : 0 < pp) :
    ∀ (l : List (Nat × Nat)) (n : Nat) (bs : List (List (Nat × Nat))),
      bs.length = pp →
      (((List.enumFrom n l).foldl (scatterStep pp) bs).map (rangeCount x)).sum =
          (bs.map (rangeCount x)).sum + rangeCount x l ∧
        ((List.enumFrom n l).foldl (scatterStep pp) bs).length = pp := by
  intro l
  induction l with
  | nil => intro n bs hbs; simp [rangeCount, hbs]
  | cons r l ih =>
    intro n bs hbs
    have hkc : n % pp < bs.length := by rw [hbs]; exact Nat.mod_lt _ hpp
    have hstep : (scatterStep pp bs (n, r)).length = pp := by
      rw [scatterStep_length]; exact hbs
    have hsum := sum_map_set_append x bs (n % pp) r hkc
    obtain ⟨ih1, ih2⟩ := ih (n + 1) (scatterStep pp bs (n, r)) hstep
    refine ⟨?_, ?_⟩
    · rw [List.enumFrom_cons, List.foldl_cons, ih1]
      have : ((scatterStep pp bs (n, r)).map (rangeCount x)).sum =
          (bs.map (rangeCount x)).sum + rangeCount x [r] := hsum
      rw [this]
      simp only [rangeCount, List.countP_cons, List.countP_nil]
      omega
    · rw [List.enumFrom_cons, List.foldl_cons]; exact ih2

theorem scatterRanges_sum (x pp : Nat) (hpp : 0 < pp) (rs : List (Nat × Nat)) :
    stageRangeCount x (scatterRanges pp rs) = rangeCount x rs := by
  unfold stageRangeCount scatterRanges List.enum
  obtain ⟨h1, _⟩ := scatter_fold_sum x pp hpp rs 0 (List.replicate pp [])
    (by simp)
  rw [h1]
  simp [rangeCount]

theorem scatterRanges_length (pp : Nat) (hpp : 0 < pp) (rs : List (Nat × Nat)) :
    (scatterRanges pp rs).length = pp := by
  unfold scatterRanges List.enum
  obtain ⟨_, h2⟩ := scatter_fold_sum 0 pp hpp rs 0 (List.replicate pp [])
    (by simp)
  exact h2

/-! ## Coverage of the uniform policy -/

theorem segment_uniform_chain (ln sn : Nat) (hsn : 0 < sn) :
    List.Chain' (· ≤ ·) (segment_uniform ln sn) := by
  unfold segment_uniform
  rw [List.chain'_map, List.chain'_range_succ]
  intro m hm
  have e1 := uniformBoundary_closed ln sn hsn m (by omega)
  have e2 := uniformBoundary_closed ln sn hsn (m + 1) (by omega)
  rw [e1, e2]
  have hr : ln % sn < sn := Nat.mod_lt _ hsn
  generalize ln / sn = q at *
  generalize ln % sn = r at *
  have hA : (m + 1) * q = m * q + q := Nat.succ_mul ..
  omega

theorem segment_uniform_last (ln sn : Nat) (hsn : 0 < sn) :
    (segment_uniform ln sn).getD sn 0 = ln := by
  rw [segment_uniform_getD ln sn sn (by omega),
    uniformBoundary_closed ln sn hsn sn (by omega)]
  have hr : ln % sn < sn := Nat.mod_lt _ hsn
  have hdm : sn * (ln / sn) + ln % sn = ln := Nat.div_add_mod ln sn
  generalize ln / sn = q at *
  generalize ln % sn = r at *
  have hA : sn * q = sn * q := rfl
  omega

theorem segment_uniform_length (ln sn : Nat) :
    (segment_uniform ln sn).length = sn + 1 := by
  simp [segment_uniform]

/-- Uniform-policy coverage: every ordinal below `layer_num` lies in
exactly one boundary range, every other ordinal in none. -/
theorem uniform_coverage (ln sn : Nat) (hsn : 0 < sn) (x : Nat) :
    rangeCount x (boundaryRanges (segment_uniform ln sn)) =
      if x < ln then 1 else 0 := by
  rw [chain_rangeCount x _ (segment_uniform_chain ln sn hsn)]
  rw [segment_uniform_length]
  simp only [Nat.add_sub_cancel]
  rw [segment_uniform_last ln sn hsn,
    segment_uniform_getD ln sn 0 (by omega)]
  have h0 : uniformBoundary ln sn 0 = 0 := rfl
  rw [h0]
  split_ifs <;> omega

/-! ## Coverage of the by-layer-weight policy -/

theorem getD_set_self : ∀ (l : List Nat) (i v : Nat), i < l.length →
    (l.set i v).getD i 0 = v
  | [], _, _, h => absurd h (by simp)
  | _ :: _, 0, _, _ => rfl
  | a :: t, i + 1, v, h => by
    simp only [List.set_cons_succ, List.getD_cons_succ]
    exact getD_set_self t i v (by simp at h; omega)

theorem getD_set_ne : ∀ (l : List Nat) (i j v : Nat), i ≠ j →
    (l.set i v).getD j 0 = l.getD j 0
  | [], _, _, _, _ => by simp
  | a :: t, 0, 0, v, h => absurd rfl h
  | a :: t, 0, j + 1, v, _ => by
    simp only [List.set_cons_zero, List.getD_cons_succ]
  | a :: t, i + 1, 0, v, _ => by
    simp only [List.set_cons_succ, List.getD_cons_zero]
  | a :: t, i + 1, j + 1, v, h => by
    simp only [List.set_cons_succ, List.getD_cons_succ]
    exact getD_set_ne t i j v (by omega)

theorem getD_replicate_zero : ∀ (n j : Nat), (List.replicate n (0 : Nat)).getD j 0 = 0
  | 0, _ => by simp
  | n + 1, 0 => rfl
  | n + 1, j + 1 => by
    simp only [List.replicate, List.getD_cons_succ]
    exact getD_replicate_zero n j

theorem chain'_of_getD (l : List Nat)
    (h : ∀ j, j + 1 < l.length → l.getD j 0 ≤ l.getD (j + 1) 0) :
    List.Chain' (· ≤ ·) l := by
  rw [List.chain'_iff_get]
  intro i hi
  have hh := h i (by omega)
  rw [List.getD_eq_getElem _ _ (by omega), List.getD_eq_getElem _ _ (by omega)] at hh
  simpa using hh

theorem byLayerWeights_le_one (ln : Nat) : ∀ w ∈ byLayerWeights ln, w ≤ 1 := by
  intro w hw
  obtain ⟨i, _, rfl⟩ := List.mem_map.mp hw
  split <;> omega

theorem byLayerWeights_sum_aux (ln : Nat) : ∀ m : Nat,
    ((List.range m).map (fun i => if 1 ≤ i ∧ i + 2 < ln then 1 else 0)).sum =
      min m (ln - 2) - 1 := by
  intro m
  induction m with
  | zero => simp [Nat.min_def]
  | succ n ih =>
    rw [List.range_succ, List.map_append, List.sum_append, ih]
    simp only [List.map_cons, List.map_nil, List.sum_cons, List.sum_nil]
    rw [Nat.min_def, Nat.min_def]
    by_cases hc : 1 ≤ n ∧ n + 2 < ln
    · rw [if_pos hc]; split_ifs <;> omega
    · rw [if_neg hc]; split_ifs <;> omega

theorem byLayerWeights_sum (ln : Nat) : (byLayerWeights ln).sum = ln - 3 := by
  rw [byLayerWeights, byLayerWeights_sum_aux]
  omega

/-- `segment_by_layer`'s loop never writes out of range when the
remaining number of boundary cuts fits in the result array. -/
theorem segLoop_isSome (sn ps : Nat) (hps : 0 < ps) :
    ∀ (ws : List Nat) (idx : Nat) (res : List Nat) (ridx mem : Nat),
      (∀ w ∈ ws, w ≤ 1) → res.length = sn + 1 → 1 ≤ ridx → mem < ps →
      ridx - 1 + (mem + ws.sum) / ps ≤ sn →
      (segLoop ps ws idx res ridx mem).isSome := by
  intro ws
  induction ws with
  | nil => intro idx res ridx mem _ _ _ _ _; simp [segLoop]
  | cons w ws ih =>
    intro idx res ridx mem hw hlen hridx hmem hbound
    have hw1 : w ≤ 1 := hw w (by simp)
    have hws : ∀ v ∈ ws, v ≤ 1 := fun v hv => hw v (by simp [hv])
    rw [segLoop]
    by_cases hfire : mem + w = ps
    · rw [if_pos hfire]
      have hdiv : (mem + (w :: ws).sum) / ps = ws.sum / ps + 1 := by
        rw [List.sum_cons, show mem + (w + ws.sum) = ws.sum + ps by omega]
        exact Nat.add_div_right _ hps
      have hridx_lt : ridx < res.length := by
        rw [hlen]
        have h1 : 1 ≤ (mem + (w :: ws).sum) / ps := by
          rw [hdiv]; exact Nat.succ_le_succ (Nat.zero_le _)
        omega
      rw [if_pos hridx_lt]
      apply ih (idx + 1) _ (ridx + 1) 0 hws (by simp [hlen]) (by omega) hps
      rw [Nat.zero_add]
      rw [hdiv] at hbound
      omega
    · rw [if_neg hfire]
      have hmem' : mem + w < ps := by omega
      apply ih (idx + 1) res ridx (mem + w) hws hlen hridx hmem'
      rw [show mem + w + ws.sum = mem + (w :: ws).sum by rw [List.sum_cons]; omega]
      exact hbound

/-- Structure of a successful `segment_by_layer` loop run: the written
prefix of the result is strictly increasing, bounded by the number of
processed ordinals, unwritten slots stay `0`, and the number of cuts is
accounted by `part_size`-sized chunks of accumulated weight. -/
theorem segLoop_sound (sn ps : Nat) :
    ∀ (ws : List Nat) (idx : Nat) (res : List Nat) (ridx mem : Nat)
      (res' : List Nat) (ridx' mem' : Nat),
      (∀ w ∈ ws, w ≤ 1) →
      res.length = sn + 1 → 1 ≤ ridx → ridx ≤ sn + 1 →
      (∀ j, ridx ≤ j → res.getD j 0 = 0) →
      (∀ j, 1 ≤ j → j < ridx → 1 ≤ res.getD j 0 ∧ res.getD j 0 ≤ idx) →
      (∀ j, 1 ≤ j → j + 1 < ridx → res.getD j 0 < res.getD (j + 1) 0) →
      res.getD 0 0 = 0 →
      segLoop ps ws idx res ridx mem = some (res', ridx', mem') →
      res'.length = sn + 1 ∧ ridx ≤ ridx' ∧ ridx' ≤ sn + 1 ∧
        (∀ j, ridx' ≤ j → res'.getD j 0 = 0) ∧
        (∀ j, 1 ≤ j → j < ridx' →
          1 ≤ res'.getD j 0 ∧ res'.getD j 0 ≤ idx + ws.length) ∧
        (∀ j, 1 ≤ j → j + 1 < ridx' → res'.getD j 0 < res'.getD (j + 1) 0) ∧
        res'.getD 0 0 = 0 ∧
        (ridx' - 1) * ps + mem' = (ridx - 1) * ps + mem + ws.sum ∧
        (0 < ps → mem < ps → mem' < ps) := by
  intro ws
  induction ws with
  | nil =>
    intro idx res ridx mem res' ridx' mem' _ hlen hr1 hr2 hzero hvals hmono h0 hrun
    rw [segLoop] at hrun
    injection hrun with hrun
    obtain ⟨rfl, rfl, rfl⟩ : res = res' ∧ ridx = ridx' ∧ mem = mem' := by
      refine ⟨?_, ?_, ?_⟩ <;> cases hrun <;> rfl
    refine ⟨hlen, le_refl _, hr2, hzero, ?_, hmono, h0, by simp, fun _ h => h⟩
    intro j hj hj'
    have := hvals j hj hj'
    simpa using this
  | cons w ws ih =>
    intro idx res ridx mem res' ridx' mem' hw hlen hr1 hr2 hzero hvals hmono h0 hrun
    have hw1 : w ≤ 1 := hw w (by simp)
    have hws : ∀ v ∈ ws, v ≤ 1 := fun v hv => hw v (by simp [hv])
    rw [segLoop] at hrun
    by_cases hfire : mem + w = ps
    · rw [if_pos hfire] at hrun
      by_cases hok : ridx < res.length
      · rw [if_pos hok] at hrun
        set res₂ := res.set ridx (idx + 1) with hres₂
        have hlen₂ : res₂.length = sn + 1 := by
          rw [hres₂, List.length_set]; exact hlen
        have hzero₂ : ∀ j, ridx + 1 ≤ j → res₂.getD j 0 = 0 := by
          intro j hj
          rw [hres₂, getD_set_ne _ _ _ _ (by omega)]
          exact hzero j (by omega)
        have hvals₂ : ∀ j, 1 ≤ j → j < ridx + 1 →
            1 ≤ res₂.getD j 0 ∧ res₂.getD j 0 ≤ idx + 1 := by
          intro j hj hj'
          by_cases hjr : j = ridx
          · subst hjr
            rw [hres₂, getD_set_self _ _ _ hok]
            omega
          · rw [hres₂, getD_set_ne _ _ _ _ (by omega)]
            have := hvals j hj (by omega)
            omega
        have hmono₂ : ∀ j, 1 ≤ j → j + 1 < ridx + 1 →
            res₂.getD j 0 < res₂.getD (j + 1) 0 := by
          intro j hj hj'
          by_cases hjr : j + 1 = ridx
          · rw [hres₂, getD_set_ne _ _ _ _ (by omega), hjr,
              getD_set_self _ _ _ hok]
            have := hvals j hj (by omega)
            omega
          · rw [hres₂, getD_set_ne _ _ _ _ (by omega),
              getD_set_ne _ _ _ _ (by omega)]
            exact hmono j hj (by omega)
        have h0₂ : res₂.getD 0 0 = 0 := by
          rw [hres₂, getD_set_ne _ _ _ _ (by omega)]
          exact h0
        obtain ⟨c1, c2, c3, c4, c5, c6, c7, c8, c9⟩ :=
          ih (idx + 1) res₂ (ridx + 1) 0 res' ridx' mem' hws hlen₂ (by omega)
            (by rw [hlen] at hok; omega) hzero₂ hvals₂ hmono₂ h0₂ hrun
        refine ⟨c1, by omega, c3, c4, ?_, c6, c7, ?_, ?_⟩
        · intro j hj hj'
          have := c5 j hj hj'
          simp only [List.length_cons]
          omega
        · have hacc : (ridx + 1 - 1) * ps = (ridx - 1) * ps + ps := by
            have : ridx + 1 - 1 = (ridx - 1) + 1 := by omega
            rw [this, Nat.succ_mul]
          rw [List.sum_cons]
          omega
        · intro hps _
          exact c9 hps hps
      · rw [if_neg hok] at hrun
        exact absurd hrun (by simp)
    · rw [if_neg hfire] at hrun
      obtain ⟨c1, c2, c3, c4, c5, c6, c7, c8, c9⟩ :=
        ih (idx + 1) res ridx (mem + w) res' ridx' mem' hws hlen hr1 hr2 hzero
          (fun j hj hj' => by have := hvals j hj hj'; omega) hmono h0 hrun
      refine ⟨c1, c2, c3, c4, ?_, c6, c7, ?_, ?_⟩
      · intro j hj hj'
        have := c5 j hj hj'
        simp only [List.length_cons]
        omega
      · rw [List.sum_cons]
        omega
      · intro hps hm
        exact c9 hps (by omega)

/-- When the total transformer weight splits into at least `part_size`-many
chunks with a remainder smaller than `part_size` (equivalently
`(layer_num-3) % stage_num < (layer_num-3) / stage_num`), `segment_by_layer`
completes and yields a monotone boundary list from `0` to `layer_num`. -/
theorem by_layer_success (ln sn : Nat) (hsn : 0 < sn)
    (hq : (ln - 3) % sn < (ln - 3) / sn) :
    ∃ res, segment_by_layer ln sn = some res ∧ res.length = sn + 1 ∧
      List.Chain' (· ≤ ·) res ∧ res.getD 0 0 = 0 ∧ res.getD sn 0 = ln := by
  have hsum : (byLayerWeights ln).sum = ln - 3 := byLayerWeights_sum ln
  have hle1 := byLayerWeights_le_one ln
  have hwlen : (byLayerWeights ln).length = ln := by
    simp [byLayerWeights]
  have hps : 0 < (byLayerWeights ln).sum / sn := by
    rw [hsum]; omega
  have hdm : sn * ((ln - 3) / sn) + (ln - 3) % sn = ln - 3 :=
    Nat.div_add_mod (ln - 3) sn
  have hdiv_total :
      (byLayerWeights ln).sum / ((byLayerWeights ln).sum / sn) = sn := by
    rw [hsum]
    obtain ⟨q, hq_def⟩ : ∃ q, (ln - 3) / sn = q := ⟨_, rfl⟩
    obtain ⟨r, hr_def⟩ : ∃ r, (ln - 3) % sn = r := ⟨_, rfl⟩
    obtain ⟨t, ht_def⟩ : ∃ t, ln - 3 = t := ⟨_, rfl⟩
    rw [hq_def, hr_def, ht_def] at hdm
    rw [hq_def, hr_def] at hq
    rw [hq_def, ht_def]
    have hq0 : 0 < q := by omega
    have h2 : t = r + q * sn := by rw [Nat.mul_comm]; omega
    rw [h2, Nat.add_mul_div_left _ _ hq0, Nat.div_eq_of_lt hq, Nat.zero_add]
  have hsome := segLoop_isSome sn ((byLayerWeights ln).sum / sn) hps
    (byLayerWeights ln) 0 (List.replicate (sn + 1) 0) 1 0 hle1
    (by simp) (le_refl 1) hps
    (by simp only [Nat.sub_self, Nat.zero_add]
        rw [hdiv_total])
  obtain ⟨out, hout⟩ := Option.isSome_iff_exists.mp hsome
  obtain ⟨res₀, ridx', mem'⟩ := out
  obtain ⟨c1, c2, c3, c4, c5, c6, c7, c8, c9⟩ :=
    segLoop_sound sn ((byLayerWeights ln).sum / sn) (byLayerWeights ln) 0
      (List.replicate (sn + 1) 0) 1 0 res₀ ridx' mem' hle1 (by simp)
      (le_refl 1) (by omega)
      (fun j _ => getD_replicate_zero _ _)
      (fun j hj hj' => absurd (Nat.lt_of_lt_of_le hj' hj) (by omega))
      (fun j hj hj' => by omega)
      (getD_replicate_zero _ _) hout
  have hmem' : mem' < (byLayerWeights ln).sum / sn := c9 hps hps
  have hrr : (ln - 3) % sn < (byLayerWeights ln).sum / sn := by
    rw [hsum]; exact hq
  -- from the accounting, `ridx' - 1 = sn`
  have hacc : (ridx' - 1) * ((byLayerWeights ln).sum / sn) + mem' =
      (byLayerWeights ln).sum := by
    rw [c8]; omega
  have hfull : ridx' - 1 = sn := by
    have e1 : ((ridx' - 1) * ((byLayerWeights ln).sum / sn) + mem') /
        ((byLayerWeights ln).sum / sn) = ridx' - 1 := by
      rw [Nat.add_comm, Nat.mul_comm, Nat.add_mul_div_left _ _ hps,
        Nat.div_eq_of_lt hmem', Nat.zero_add]
    rw [hacc, hdiv_total] at e1
    omega
  have hridx' : ridx' = sn + 1 := by omega
  refine ⟨res₀.set sn ln, ?_, ?_, ?_, ?_, ?_⟩
  · rw [segment_by_layer]
    rw [hout]
    rfl
  · rw [List.length_set]; exact c1
  · apply chain'_of_getD
    intro j hj
    rw [List.length_set, c1] at hj
    by_cases hjtop : j + 1 = sn
    · rw [getD_set_ne _ _ _ _ (by omega), hjtop, getD_set_self _ _ _ (by omega)]
      by_cases hj0 : j = 0
      · subst hj0; rw [c7]; exact Nat.zero_le _
      · have := (c5 j (by omega) (by omega)).2
        rw [Nat.zero_add, hwlen] at this
        exact le_trans this (le_refl _)
    · rw [getD_set_ne _ _ _ _ (by omega), getD_set_ne _ _ _ _ (by omega)]
      by_cases hj0 : j = 0
      · subst hj0; rw [c7]; exact Nat.zero_le _
      · exact le_of_lt (c6 j (by omega) (by omega))
  · rw [getD_set_ne _ _ _ _ (by omega)]; exact c7
  · exact getD_set_self _ _ _ (by omega)

/-- By-layer-weight coverage, under the divisibility-style side condition
that makes the boundary computation well-behaved. -/
theorem by_layer_coverage (ln sn : Nat) (hsn : 0 < sn)
    (hq : (ln - 3) % sn < (ln - 3) / sn) (x : Nat) :
    ∃ res, segment_by_layer ln sn = some res ∧
      rangeCount x (boundaryRanges res) = if x < ln then 1 else 0 := by
  obtain ⟨res, hres, hlen, hch, h0, hlast⟩ := by_layer_success ln sn hsn hq
  refine ⟨res, hres, ?_⟩
  rw [chain_rangeCount x res hch, hlen]
  simp only [Nat.add_sub_cancel]
  rw [h0, hlast]
  split_ifs <;> omega

/-! ## Claims C2, C3, C4, C5 -/

/-- **C2 (counterexample)**: the claim asserts exact coverage for the
by-layer-weight policy for *any* `pp_degree, vpp_degree ≥ 1` with
`layer_num ≥ stage_num`.  It fails: with `transformer_layer_num = 5,
pp_degree = 3, vpp_degree = 1` (`layer_num = 8 ≥ 3 = stage_num`)
`segment_by_layer` writes `result[result_idx]` out of range
(Python `IndexError`), producing no segments at all; and with
`transformer_layer_num = 1, pp_degree = 3, vpp_degree = 1`
(`layer_num = 4 ≥ 3`) it completes but ordinal `0` is covered twice. -/
theorem claim_C2_counterexample :
    ((1 : Nat) ≤ 3 ∧ (1 : Nat) ≤ 1 ∧ 3 * 1 ≤ 5 + 3) ∧
    segmentFn "by-layer-weight" (5 + 3) 3 1 = none ∧
    ((1 : Nat) ≤ 3 ∧ (1 : Nat) ≤ 1 ∧ 3 * 1 ≤ 1 + 3) ∧
    segmentFn "by-layer-weight" (1 + 3) 3 1 =
      some [[(0, 1)], [(1, 0)], [(0, 4)]] ∧
    stageRangeCount 0 [[(0, 1)], [(1, 0)], [(0, 4)]] = 2 := by decide

/-- **C2 (amended)**: for `pp_degree, vpp_degree ≥ 1` and
`layer_num = transformer_layer_num + 3 ≥ stage_num`, the segment ranges
produced by `_segment` cover every ordinal in `[0, layer_num)` exactly
once for the uniform policy; for the by-layer-weight policy the same
holds under the additional condition
`(layer_num - 3) % stage_num < (layer_num - 3) / stage_num`, under which
the boundary-cut loop is well behaved. -/
theorem claim_C2_amended_coverage (tln pp vpp : Nat) (hpp : 0 < pp)
    (hvpp : 0 < vpp) (hsl : pp * vpp ≤ tln + 3) :
    (∀ x, stageRangeCount x ((segmentFn "uniform" (tln + 3) pp vpp).getD []) =
        if x < tln + 3 then 1 else 0) ∧
    (∀ m, m ≠ "uniform" →
      (tln + 3 - 3) % (pp * vpp) < (tln + 3 - 3) / (pp * vpp) →
      ∃ segs, segmentFn m (tln + 3) pp vpp = some segs ∧ segs.length = pp ∧
        ∀ x, stageRangeCount x segs = if x < tln + 3 then 1 else 0) := by
  have hsn : 0 < pp * vpp := Nat.mul_pos hpp hvpp
  constructor
  · intro x
    have hseg : segmentFn "uniform" (tln + 3) pp vpp =
        some (scatterRanges pp
          (boundaryRanges (segment_uniform (tln + 3) (pp * vpp)))) := by
      rw [segmentFn, segmentBoundaries, if_pos rfl]
      rfl
    rw [hseg]
    simp only [Option.getD_some]
    rw [scatterRanges_sum x pp hpp, uniform_coverage _ _ hsn x]
  · intro m hm hq
    obtain ⟨res, hres, hlen, hch, h0, hlast⟩ :=
      by_layer_success (tln + 3) (pp * vpp) hsn hq
    refine ⟨scatterRanges pp (boundaryRanges res), ?_,
      scatterRanges_length pp hpp _, ?_⟩
    · rw [segmentFn, segmentBoundaries, if_neg hm, hres]
      rfl
    · intro x
      rw [scatterRanges_sum x pp hpp]
      rw [chain_rangeCount x res hch, hlen]
      simp only [Nat.add_sub_cancel]
      rw [h0, hlast]
      split_ifs <;> omega

theorem claim_C2_witness :
    ((0 : Nat) < 2 ∧ (0 : Nat) < 1 ∧ 2 * 1 ≤ 4 + 3 ∧ 4 % 2 < 4 / 2) ∧
    stageRangeCount 3 ((segmentFn "uniform" (4 + 3) 2 1).getD []) = 1 ∧
    stageRangeCount 5 ((segmentFn "by-layer-weight" (4 + 3) 2 1).getD []) = 1 := by
  have h := claim_C2_amended_coverage 4 2 1 (by decide) (by decide) (by decide)
  refine ⟨by decide, ?_, ?_⟩
  · simpa using h.1 3
  · obtain ⟨segs, h1, _, h3⟩ := h.2 "by-layer-weight" (by decide) (by decide)
    rw [h1]
    simpa using h3 5

/-- **C3 (counterexample)**: the claimed uniform scenario boundaries
`[0, 4, 7]` (stage 0 owning `{0,1,2,3}`) are wrong: the code computes
`[0, 3, 7]`, and ordinal `3` lies in stage 1's range, not stage 0's. -/
theorem claim_C3_counterexample :
    segment_uniform 7 2 = [0, 3, 7] ∧ ¬segment_uniform 7 2 = [0, 4, 7] ∧
    segmentFn "uniform" 7 2 1 = some [[(0, 3)], [(3, 7)]] ∧
    rangeCount 3 [(0, 3)] = 0 ∧ rangeCount 3 [(3, 7)] = 1 := by decide

/-- **C3 (amended)**: with `transformer_layer_num = 4, pp_degree = 2,
vpp_degree = 1, policy = uniform` (`layer_num = 7, stage_num = 2`) the
boundary list is `[0, 3, 7]`; stage 0 owns ordinals `{0,1,2}` and stage 1
owns `{3,4,5,6}` (the remainder layer goes to the *last* partition). -/
theorem claim_C3_amended_scenario :
    segment_uniform 7 2 = [0, 3, 7] ∧
    segmentFn "uniform" 7 2 1 = some [[(0, 3)], [(3, 7)]] ∧
    (∀ j, j < 7 → (rangeCount j [(0, 3)] = 1 ↔ j < 3)) ∧
    (∀ j, j < 7 → (rangeCount j [(3, 7)] = 1 ↔ 3 ≤ j)) := by decide

/-- **C4**: the uniform policy yields `stage_num` contiguous partitions of
`[0, layer_num)`; with `base = layer_num / stage_num` and
`r = layer_num % stage_num`, partitions `1 .. stage_num - r` (1-based)
have size `base` and the last `r` partitions have size `base + 1`. -/
theorem claim_C4_uniform_sizes (layer_num stage_num : Nat)
    (hsn : 1 ≤ stage_num) :
    (segment_uniform layer_num stage_num).length = stage_num + 1 ∧
    (segment_uniform layer_num stage_num).getD 0 0 = 0 ∧
    (segment_uniform layer_num stage_num).getD stage_num 0 = layer_num ∧
    ∀ i, 1 ≤ i → i ≤ stage_num →
      (segment_uniform layer_num stage_num).getD i 0 -
          (segment_uniform layer_num stage_num).getD (i - 1) 0 =
        if i ≤ stage_num - layer_num % stage_num
        then layer_num / stage_num else layer_num / stage_num + 1 := by
  refine ⟨segment_uniform_length .., ?_, segment_uniform_last _ _ hsn, ?_⟩
  · rw [segment_uniform_getD _ _ 0 (by omega)]
    rfl
  · intro i h1 h2
    exact uniform_partition_size layer_num stage_num hsn i h1 h2

theorem claim_C4_witness :
    (1 : Nat) ≤ 2 ∧
    (segment_uniform 7 2).getD 1 0 - (segment_uniform 7 2).getD 0 0 = 3 ∧
    (segment_uniform 7 2).getD 2 0 - (segment_uniform 7 2).getD 1 0 = 4 := by
  have h := claim_C4_uniform_sizes 7 2 (by decide)
  have h1 := h.2.2.2 1 (by decide) (by decide)
  have h2 := h.2.2.2 2 (by decide) (by decide)
  norm_num at h1 h2
  exact ⟨by decide, h1, h2⟩

/-- **C5**: by-layer-weight scenario: weights `[0,1,1,1,1,0,0]`,
`total_weight = 4`, `part_size = 2`, boundaries `[0, 3, 7]`; stage 0 owns
`{0,1,2}`, stage 1 owns `{3,4,5,6}`.  A boundary is cut exactly when the
accumulated weight reaches `part_size` (see `segLoop`), and the final
boundary is forced to `layer_num`. -/
theorem claim_C5_by_layer_scenario :
    byLayerWeights 7 = [0, 1, 1, 1, 1, 0, 0] ∧
    (byLayerWeights 7).sum = 4 ∧ (byLayerWeights 7).sum / 2 = 2 ∧
    segment_by_layer 7 2 = some [0, 3, 7] ∧
    segmentFn "by-layer-weight" 7 2 1 = some [[(0, 3)], [(3, 7)]] ∧
    (∀ j, j < 7 → (rangeCount j [(0, 3)] = 1 ↔ j < 3)) ∧
    (∀ j, j < 7 → (rangeCount j [(3, 7)] = 1 ↔ 3 ≤ j)) := by decide

/-! ## Decimal rendering and parsing

`str(int)` / `int(str)` as used by `template.format(index)` and
`int(match.group(3))`. -/

def digitChar (n : Nat) : Char := Char.ofNat (48 + n)

def digitVal (c : Char) : Nat := c.toNat - 48

/-- Decimal digits, fuel-structured so the kernel can evaluate it; the
fuel is irrelevant once it is at least `n` (`natDigits_eq`). -/
def natDigitsAux : Nat → Nat → List Char
  | 0, n => [digitChar n]
  | fuel + 1, n =>
    if n < 10 then [digitChar n]
    else natDigitsAux fuel (n / 10) ++ [digitChar (n % 10)]

/-- Decimal digits of a natural number (`str(n)` for `n ≥ 0`). -/
def natDigits (n : Nat) : List Char := natDigitsAux n n

theorem natDigitsAux_congr : ∀ f1 f2 n : Nat, n ≤ f1 → n ≤ f2 →
    natDigitsAux f1 n = natDigitsAux f2 n := by
  intro f1
  induction f1 using Nat.strong_induction_on with
  | _ f1 ih =>
    intro f2 n h1 h2
    match f1, f2 with
    | 0, 0 => rfl
    | 0, f2 + 1 =>
      have hn : n = 0 := by omega
      subst hn
      simp [natDigitsAux]
    | f1 + 1, 0 =>
      have hn : n = 0 := by omega
      subst hn
      simp [natDigitsAux]
    | f1 + 1, f2 + 1 =>
      simp only [natDigitsAux]
      by_cases h : n < 10
      · rw [if_pos h, if_pos h]
      · rw [if_neg h, if_neg h]
        have hlt : n / 10 < n := Nat.div_lt_self (by omega) (by omega)
        rw [ih f1 (by omega) f2 (n / 10) (by omega) (by omega)]

/-- The defining recursion of `natDigits`. -/
theorem natDigits_eq (n : Nat) :
    natDigits n =
      if n < 10 then [digitChar n]
      else natDigits (n / 10) ++ [digitChar (n % 10)] := by
  unfold natDigits
  match n with
  | 0 => simp [natDigitsAux]
  | n + 1 =>
    simp only [natDigitsAux]
    by_cases h : n + 1 < 10
    · rw [if_pos h, if_pos h]
    · rw [if_neg h, if_neg h]
      have hlt : (n + 1) / 10 < n + 1 := Nat.div_lt_self (by omega) (by omega)
      rw [natDigitsAux_congr n ((n + 1) / 10) ((n + 1) / 10) (by omega) (by omega)]

def natStr (n : Nat) : String := ⟨natDigits n⟩

/-- `str(i)` for a Python `int`. -/
def intStr (i : Int) : String :=
  if i < 0 then "-" ++ natStr (-i).toNat else natStr i.toNat

/-- `int(s)` on a (nonempty) digit string. -/
def parseDigits (cs : List Char) : Nat :=
  cs.foldl (fun acc c => acc * 10 + digitVal c) 0

theorem digitVal_digitChar (d : Nat) (h : d < 10) :
    digitVal (digitChar d) = d := by
  interval_cases d <;> decide

theorem digitChar_isDigit (d : Nat) (h : d < 10) :
    (digitChar d).isDigit = true := by
  interval_cases d <;> decide

theorem parseDigits_from (cs : List Char) :
    ∀ a, cs.foldl (fun acc c => acc * 10 + digitVal c) a =
      a * 10 ^ cs.length + parseDigits cs := by
  induction cs with
  | nil => intro a; simp [parseDigits]
  | cons c t ih =>
    intro a
    simp only [List.foldl_cons, parseDigits, List.length_cons]
    rw [ih (a * 10 + digitVal c), ih (0 * 10 + digitVal c)]
    ring

theorem parseDigits_append (l₁ l₂ : List Char) :
    parseDigits (l₁ ++ l₂) =
      parseDigits l₁ * 10 ^ l₂.length + parseDigits l₂ := by
  unfold parseDigits
  rw [List.foldl_append]
  exact parseDigits_from l₂ _

theorem parseDigits_natDigits : ∀ n : Nat, parseDigits (natDigits n) = n := by
  intro n
  induction n using Nat.strong_induction_on with
  | _ n ih =>
    rw [natDigits_eq]
    by_cases h : n < 10
    · rw [if_pos h]
      simp only [parseDigits, List.foldl_cons, List.foldl_nil, Nat.zero_mul,
        Nat.zero_add]
      exact digitVal_digitChar n h
    · rw [if_neg h]
      rw [parseDigits_append]
      have ihd := ih (n / 10) (Nat.div_lt_self (by omega) (by omega))
      have hd : digitVal (digitChar (n % 10)) = n % 10 :=
        digitVal_digitChar _ (Nat.mod_lt _ (by omega))
      simp only [List.length_cons, List.length_nil, pow_one, parseDigits,
        List.foldl_cons, List.foldl_nil, Nat.zero_mul, Nat.zero_add]
      have ihd' : List.foldl (fun acc c => acc * 10 + digitVal c) 0
          (natDigits (n / 10)) = n / 10 := ihd
      rw [ihd', hd]
      omega

theorem natDigits_all_digits : ∀ n : Nat, ∀ c ∈ natDigits n, c.isDigit = true := by
  intro n
  induction n using Nat.strong_induction_on with
  | _ n ih =>
    intro c hc
    rw [natDigits_eq] at hc
    by_cases h : n < 10
    · rw [if_pos h] at hc
      simp only [List.mem_singleton] at hc
      subst hc
      exact digitChar_isDigit n h
    · rw [if_neg h] at hc
      rw [List.mem_append] at hc
      rcases hc with hc | hc
      · exact ih (n / 10) (Nat.div_lt_self (by omega) (by omega)) c hc
      · simp only [List.mem_singleton] at hc
        subst hc
        exact digitChar_isDigit _ (Nat.mod_lt _ (by omega))

theorem natDigits_injective (m n : Nat) (h : natDigits m = natDigits n) :
    m = n := by
  have := parseDigits_natDigits m
  rw [h, parseDigits_natDigits] at this
  omega

theorem takeWhile_all {p : Char → Bool} :
    ∀ (l : List Char), (∀ c ∈ l, p c = true) → l.takeWhile p = l := by
  intro l
  induction l with
  | nil => intro _; rfl
  | cons c t ih =>
    intro h
    rw [List.takeWhile_cons, h c (by simp), if_pos rfl,
      ih (fun d hd => h d (by simp [hd]))]

/-! ## Layer classification (`extract_layer_name`, `index_layer`) -/

/-- `pattern.isPrefixOf`-style check, written out to keep the embedding
self-contained: does `l` start with `p`? -/
def listStartsWith [DecidableEq α] : List α → List α → Bool
  | [], _ => true
  | _ :: _, [] => false
  | p :: ps, c :: cs => if p = c then listStartsWith ps cs else false

theorem listStartsWith_append [DecidableEq α] :
    ∀ (p rest : List α), listStartsWith p (p ++ rest) = true := by
  intro p
  induction p with
  | nil => intro rest; rfl
  | cons a t ih =>
    intro rest
    simp only [List.cons_append, listStartsWith, if_pos rfl]
    exact ih rest

theorem listStartsWith_iff [DecidableEq α] :
    ∀ (p l : List α), listStartsWith p l = true ↔ ∃ rest, l = p ++ rest := by
  intro p
  induction p with
  | nil => intro l; simp [listStartsWith]
  | cons a t ih =>
    intro l
    cases l with
    | nil => simp [listStartsWith]
    | cons c cs =>
      simp only [listStartsWith, List.cons_append]
      by_cases hac : a = c
      · subst hac
        rw [if_pos rfl, ih cs]
        constructor
        · rintro ⟨rest, rfl⟩
          exact ⟨rest, rfl⟩
        · rintro ⟨rest, h⟩
          injection h with _ h2
          exact ⟨rest, h2⟩
      · rw [if_neg hac]
        constructor
        · intro h
          simp at h
        · rintro ⟨rest, h⟩
          injection h with h1 _
          exact absurd h1.symm hac

/-- Match of the regex `ernie\.layers((\.(\d+)))` at the start of `cs`:
returns the (greedy, nonempty) digit run following `"ernie.layers."`. -/
def layersMatchDigits (cs : List Char) : Option (List Char) :=
  if listStartsWith "ernie.layers".data cs then
    match cs.drop 12 with
    | '.' :: rest =>
      let ds := rest.takeWhile Char.isDigit
      if ds.isEmpty then none else some ds
    | _ => none
  else none

/-- `re.search` of the unanchored pattern `ernie\.layers((\.(\d+)))`:
first match position scanning left to right. -/
def searchLayersDigits : List Char → Option (List Char)
  | [] => none
  | c :: rest =>
    match layersMatchDigits (c :: rest) with
    | some ds => some ds
    | none => searchLayersDigits rest

/-- `extract_layer_name`: ordered match of the four anchored patterns
`^ernie\.layers((\.\d+))`, `^ernie\.embed_tokens`, `^ernie\.norm`,
`^lm_head`; returns `match.group()` (the matched text) or `None`. -/
def extract_layer_name (param_name : String) : Option String :=
  let cs := param_name.data
  match layersMatchDigits cs with
  | some ds => some ⟨"ernie.layers.".data ++ ds⟩
  | none =>
    if listStartsWith "ernie.embed_tokens".data cs then some "ernie.embed_tokens"
    else if listStartsWith "ernie.norm".data cs then some "ernie.norm"
    else if listStartsWith "lm_head".data cs then some "lm_head"
    else none

/-- `index_layer`: embedding → 0, block `k` → `k+1`,
norm → `transformer_layer_num + 1`, head → `transformer_layer_num + 2`.
The `assert match` on a non-matching other name is `none`. -/
def index_layer (layer_name : String) (transformer_layer_num : Nat) :
    Option Nat :=
  if layer_name = "ernie.embed_tokens" then some 0
  else if layer_name = "ernie.norm" then some (transformer_layer_num + 1)
  else if layer_name = "lm_head" then some (transformer_layer_num + 2)
  else (searchLayersDigits layer_name.data).map (fun ds => parseDigits ds + 1)

/-! ## Canonical namer (`LayerNameScope`, `LayerReNamingManager`)

A scope holds a prefix string (`""` models Python's falsy `None`/`""`,
which behave identically under `if self.prefix:`), an optional naming
template, a counter starting at `-1`, the last `(layer_id, old_name)`
pair seen, and cached child scopes.  Every template in
`prefix_to_template` is literally `key + "_{}"`, so a template is stored
as its `key` and `template.format(index)` is `key ++ "_" ++ str(index)`. -/

inductive LayerNameScope : Type where
  | mk : String → Option String → Int → String → String →
      List (String × LayerNameScope) → LayerNameScope

def LayerNameScope.pfx : LayerNameScope → String
  | .mk p _ _ _ _ _ => p

def LayerNameScope.template : LayerNameScope → Option String
  | .mk _ t _ _ _ _ => t

def LayerNameScope.index : LayerNameScope → Int
  | .mk _ _ i _ _ _ => i

def LayerNameScope.lastLayerId : LayerNameScope → String
  | .mk _ _ _ l _ _ => l

def LayerNameScope.lastOldName : LayerNameScope → String
  | .mk _ _ _ _ o _ => o

def LayerNameScope.subScopes : LayerNameScope → List (String × LayerNameScope)
  | .mk _ _ _ _ _ s => s

/-- The ordered key list of `LayerNameScope.prefix_to_template`
(the template for key `k` is `k ++ "_{}"`). -/
def roleTable : List String :=
  ["column_sequence_parallel_linear", "row_sequence_parallel_linear",
   "linear", "layer_norm", "embedding", "create_parameter", "ernie_lm_head"]

/-- `LayerNameScope.get_layer_prefix`: the first table key that
`old_layer_name` starts with. -/
def getLayerRole (old_layer_name : String) : Option String :=
  roleTable.find? (fun k => listStartsWith k.data old_layer_name.data)

/-- `LayerNameScope.get_layer_name`:
`template.format(index)` prefixed with `prefix + "_"` when set. -/
def LayerNameScope.getLayerName (s : LayerNameScope) : String :=
  let name := match s.template with
    | some k => k ++ "_" ++ intStr s.index
    | none => ""
  if s.pfx ≠ "" then s.pfx ++ "_" ++ name else name

/-- `LayerNameScope.get_next_scope`: advance the counter and clear the
children iff the `(layer_id, old_layer_name)` pair differs from the last
call's. -/
def LayerNameScope.getNextScope (s : LayerNameScope)
    (layer_id old_layer_name : String) : LayerNameScope :=
  match s with
  | .mk p t idx lastL lastO subs =>
    if old_layer_name ≠ lastO ∨ layer_id ≠ lastL then
      .mk p t (idx + 1) layer_id old_layer_name []
    else .mk p t idx lastL lastO subs

/-- The root scope of a fresh `LayerReNamingManager`
(`LayerNameScope(None, None)`). -/
def topScope : LayerNameScope := .mk "" none (-1) "" "" []

/-- `LayerReNamingManager.get_new_layer_name` for the single-level
`extract_layer_names` of this file: `get_sub_scope` (assert a known role
prefix; cache-or-create the child, a fresh child's prefix being the
parent's `get_layer_name()`), then `get_next_scope` on the child, whose
updated state is written back into the parent's cache. -/
def getNewLayerName (top : LayerNameScope) (layer_id l : String) :
    Option (String × LayerNameScope) :=
  match getLayerRole l with
  | none => none
  | some key =>
    let child :=
      match odGet top.subScopes key with
      | some c => c
      | none => .mk top.getLayerName (some key) (-1) "" "" []
    let child₂ := child.getNextScope layer_id l
    some (child₂.getLayerName,
      match top with
      | .mk p t idx lastL lastO subs => .mk p t idx lastL lastO (odSet subs key child₂))

/-- Python `s.split(".")` on the character list: always nonempty,
empty pieces preserved. -/
def splitOnDot : List Char → List (List Char)
  | [] => [[]]
  | c :: rest =>
    if c = '.' then [] :: splitOnDot rest
    else
      match splitOnDot rest with
      | h :: t => (c :: h) :: t
      | [] => [[c]]

/-- Python `old_name.split(".")`. -/
def splitDot (s : String) : List String :=
  (splitOnDot s.data).map (fun cs => ⟨cs⟩)

/-- Python `".".flatten(names)`. -/
def joinDot : List String → String
  | [] => ""
  | [x] => x
  | x :: rest => x ++ "." ++ joinDot rest

/-- `LayerReNamingManager.get_new_param_name`: rename the first
`.`-component, keep the rest. -/
def getNewParamName (top : LayerNameScope) (layer_id old_name : String) :
    Option (String × LayerNameScope) :=
  let names := splitDot old_name
  match getNewLayerName top layer_id (names.headD "") with
  | none => none
  | some (layer_name, top₂) =>
    some (joinDot (layer_name :: names.tail), top₂)

/-! ## Stage / Segment / Layer aggregate -/

/-- `PipeLinelayer`: params re-sorted by TensorName
(`sorted(param_names, key=lambda x: x[1])`, a stable sort), then
inserted into an `OrderedDict` keyed by RawParamName. -/
structure PipeLinelayer where
  layer_name : String
  params : List (String × String)

/-- Lexicographic comparison of character lists by code point — Python's
string `<=`, and kernel-computable (unlike `String.le`, whose decision
procedure is iterator-based). -/
def listCharLe : List Char → List Char → Bool
  | [], _ => true
  | _ :: _, [] => false
  | a :: as, b :: bs =>
    if a.toNat < b.toNat then true
    else if b.toNat < a.toNat then false
    else listCharLe as bs

/-- Python `s <= t` on strings. -/
def strLe (s t : String) : Bool := listCharLe s.data t.data

def sortByTensor (ps : List (String × String)) : List (String × String) :=
  List.insertionSort (fun a b : String × String => strLe a.2 b.2 = true) ps

def PipeLinelayer.build (layer_name : String)
    (param_names : List (String × String)) : PipeLinelayer :=
  { layer_name := layer_name, params := odFromList (sortByTensor param_names) }

/-- `PipeLineSegment`: layers of the ordinal range
`[start_index, end_index)`, keyed by layer name. -/
structure PipeLineSegment where
  start_index : Nat
  end_index : Nat
  cur_index : Nat
  seg_layers : List (String × PipeLinelayer)

def PipeLineSegment.init (s e : Nat) : PipeLineSegment :=
  ⟨s, e, s, []⟩

/-- `PipeLineSegment.add_layer` (`assert self._cur_index < self._end_index`). -/
def PipeLineSegment.add_layer (seg : PipeLineSegment) (layer_name : String)
    (param_names : List (String × String)) : Option PipeLineSegment :=
  if seg.cur_index < seg.end_index then
    some { seg with
      seg_layers := odSet seg.seg_layers layer_name
        (PipeLinelayer.build layer_name param_names),
      cur_index := seg.cur_index + 1 }
  else none

/-- The `layers` property (`assert self._cur_index == self._end_index`). -/
def PipeLineSegment.layersChecked (seg : PipeLineSegment) :
    Option (List (String × PipeLinelayer)) :=
  if seg.cur_index = seg.end_index then some seg.seg_layers else none

/-- `PipeLineStage`.  Python's `_layer_to_segment` maps an ordinal to the
segment *object*, aliasing an entry of `_segments`; the pure model maps
the ordinal to the segment's start index, the key into `segments`. -/
structure PipeLineStage where
  rename_mgr : LayerNameScope
  segments : List (Nat × PipeLineSegment)
  layer_to_segment : List (Nat × Nat)
  param_to_tname : List (String × (String × String))

def PipeLineStage.init : PipeLineStage := ⟨topScope, [], [], []⟩

def PipeLineStage.add_segment (st : PipeLineStage) (s e : Nat) :
    PipeLineStage :=
  { st with
    segments := odSet st.segments s (PipeLineSegment.init s e),
    layer_to_segment :=
      (List.range' s (e - s)).foldl (fun m i => odSet m i s) st.layer_to_segment }

/-- `PipeLineStage.add_layer` (`assert layer_index in self._layer_to_segment`,
then mutate the aliased segment). -/
def PipeLineStage.add_layer (st : PipeLineStage) (layer_index : Nat)
    (layer_name : String) (param_names : List (String × String)) :
    Option PipeLineStage :=
  match odGet st.layer_to_segment layer_index with
  | none => none
  | some s =>
    match odGet st.segments s with
    | none => none
    | some seg =>
      match seg.add_layer layer_name param_names with
      | none => none
      | some seg₂ => some { st with segments := odSet st.segments s seg₂ }

/-- The innermost loop of `build_name_mapping`:
`for param in layer.params.items(): n_name =
self._rename_mgr.get_new_param_name(layer.name, tensor_name);
self._param_to_tname[param_name] = (tensor_name, n_name)`. -/
def renameParams (top : LayerNameScope) (layer_name : String) :
    List (String × String) → List (String × (String × String)) →
    Option (LayerNameScope × List (String × (String × String)))
  | [], acc => some (top, acc)
  | (param_name, tensor_name) :: rest, acc =>
    match getNewParamName top layer_name tensor_name with
    | none => none
    | some (n_name, top₂) =>
      renameParams top₂ layer_name rest (odSet acc param_name (tensor_name, n_name))

def renameLayers (top : LayerNameScope) :
    List (String × PipeLinelayer) → List (String × (String × String)) →
    Option (LayerNameScope × List (String × (String × String)))
  | [], acc => some (top, acc)
  | (_, layer) :: rest, acc =>
    match renameParams top layer.layer_name layer.params acc with
    | none => none
    | some (top₂, acc₂) => renameLayers top₂ rest acc₂

def renameSegments (top : LayerNameScope) :
    List (Nat × PipeLineSegment) → List (String × (String × String)) →
    Option (LayerNameScope × List (String × (String × String)))
  | [], acc => some (top, acc)
  | (_, seg) :: rest, acc =>
    match seg.layersChecked with
    | none => none
    | some ls =>
      match renameLayers top ls acc with
      | none => none
      | some (top₂, acc₂) => renameSegments top₂ rest acc₂

/-- `PipeLineStage.build_name_mapping`. -/
def PipeLineStage.build_name_mapping (st : PipeLineStage) :
    Option PipeLineStage :=
  (renameSegments st.rename_mgr st.segments st.param_to_tname).map
    (fun r => { st with rename_mgr := r.1, param_to_tname := r.2 })

/-- `PipeLineStage.map_name`: `assert param_name in self._param_to_tname;
assert tensor_name == t_name; return n_name`. -/
def PipeLineStage.map_name (st : PipeLineStage) (param_name t_name : String) :
    Option String :=
  match odGet st.param_to_tname param_name with
  | none => none
  | some (tensor_name, n_name) =>
    if tensor_name = t_name then some n_name else none

/-! ## Segment context (`PipeLineSegmentContext`) -/

/-- `PipeLineSegmentContext` after a successful construction.  The source
also stores `_param_names_by_layer`, which none of the public operations
modelled here read; it is omitted from the record. -/
structure PipeLineSegmentContext where
  transformer_layer_num_param : Option Nat
  pp_degree : Nat
  vpp_degree : Nat
  segment_method : String
  layers : List String
  stages : List PipeLineStage
  layer_index_to_stage : List (Nat × Nat)
  layer_name_to_index : List (String × Nat)
  layer_index_to_name : List (Nat × String)
  layer_name_to_stage : List (String × Nat)

/-- The `transformer_layer_num` property: a supplied positive value is
validated against the catalogue size (`assert len == t + 3`, modelled as
`none` on failure), otherwise it is derived as `len - 3`. -/
def ctxTransformerLayerNum (tparam : Option Nat)
    (catalogue : List (String × List (String × String))) : Option Nat :=
  match tparam with
  | some t =>
    if 0 < t then
      if catalogue.length = t + 3 then some t else none
    else some (catalogue.length - 3)
  | none => some (catalogue.length - 3)

/-- `_index_layers`: `for layer_name in keys: index = index_layer(...);
self._layer_name_to_index[layer_name] = index;
self._layer_index_to_name[index] = layer_name`. -/
def indexLayersFold (tln : Nat) :
    List String → List (String × Nat) → List (Nat × String) →
    Option (List (String × Nat) × List (Nat × String))
  | [], n2i, i2n => some (n2i, i2n)
  | name :: rest, n2i, i2n =>
    match index_layer name tln with
    | none => none
    | some idx => indexLayersFold tln rest (odSet n2i name idx) (odSet i2n idx name)

/-- The inner `for j in range(*seg)` loop of the constructor: look the
ordinal's layer name up, look its params up in the catalogue, add the
layer to the stage, and record the ordinal's and the name's stage. -/
def addLayersRange (cat : List (String × List (String × String)))
    (i2n : List (Nat × String)) (i : Nat) :
    List Nat → PipeLineStage → List (Nat × Nat) → List (String × Nat) →
    Option (PipeLineStage × List (Nat × Nat) × List (String × Nat))
  | [], st, l2s, n2s => some (st, l2s, n2s)
  | j :: rest, st, l2s, n2s =>
    match odGet i2n j with
    | none => none
    | some layer_name =>
      match odGet cat layer_name with
      | none => none
      | some plist =>
        match st.add_layer j layer_name plist with
        | none => none
        | some st₂ =>
          addLayersRange cat i2n i rest st₂ (odSet l2s j i) (odSet n2s layer_name i)

/-- The `for seg in stage_seg` loop. -/
def addSegments (cat : List (String × List (String × String)))
    (i2n : List (Nat × String)) (i : Nat) :
    List (Nat × Nat) → PipeLineStage → List (Nat × Nat) →
    List (String × Nat) →
    Option (PipeLineStage × List (Nat × Nat) × List (String × Nat))
  | [], st, l2s, n2s => some (st, l2s, n2s)
  | (s, e) :: rest, st, l2s, n2s =>
    match addLayersRange cat i2n i (List.range' s (e - s))
        (st.add_segment s e) l2s n2s with
    | none => none
    | some (st₃, l2s₃, n2s₃) => addSegments cat i2n i rest st₃ l2s₃ n2s₃

/-- The `for (i, stage_seg) in enumerate(stage_segments)` loop. -/
def buildStages (cat : List (String × List (String × String)))
    (i2n : List (Nat × String)) :
    List (List (Nat × Nat)) → Nat → List PipeLineStage → List (Nat × Nat) →
    List (String × Nat) →
    Option (List PipeLineStage × List (Nat × Nat) × List (String × Nat))
  | [], _, stages, l2s, n2s => some (stages, l2s, n2s)
  | stage_seg :: rest, i, stages, l2s, n2s =>
    match addSegments cat i2n i stage_seg PipeLineStage.init l2s n2s with
    | none => none
    | some (st, l2s₂, n2s₂) =>
      buildStages cat i2n rest (i + 1) (stages ++ [st]) l2s₂ n2s₂

/-- `for stage in self._stages: stage.build_name_mapping()`. -/
def buildAllNameMappings : List PipeLineStage → Option (List PipeLineStage)
  | [] => some []
  | st :: rest =>
    match st.build_name_mapping with
    | none => none
    | some st₂ => (buildAllNameMappings rest).map (fun l => st₂ :: l)

/-- The `PipeLineSegmentContext.__init__` pipeline: index the layers,
segment, build the stages, then build every stage's name mapping.
All-or-nothing: any assertion failure yields `none`. -/
def buildPipeLineSegmentContext (tparam : Option Nat) (pp vpp : Nat)
    (method : String) (cat : List (String × List (String × String))) :
    Option PipeLineSegmentContext :=
  match ctxTransformerLayerNum tparam cat with
  | none => none
  | some tln =>
    match indexLayersFold tln (cat.map Prod.fst) [] [] with
    | none => none
    | some (n2i, i2n) =>
      match segmentFn method (tln + 3) pp vpp with
      | none => none
      | some stage_segments =>
        match buildStages cat i2n stage_segments 0 [] [] [] with
        | none => none
        | some (stages, l2s, n2s) =>
          match buildAllNameMappings stages with
          | none => none
          | some stages₂ =>
            some { transformer_layer_num_param := tparam, pp_degree := pp,
                   vpp_degree := vpp, segment_method := method,
                   layers := cat.map Prod.fst, stages := stages₂,
                   layer_index_to_stage := l2s, layer_name_to_index := n2i,
                   layer_index_to_name := i2n, layer_name_to_stage := n2s }

/-- `PipeLineSegmentContext.map_name`. -/
def PipeLineSegmentContext.ctx_map_name (ctx : PipeLineSegmentContext)
    (param_name t_name : String) : Option String :=
  match extract_layer_name param_name with
  | none => none
  | some layer_name =>
    match odGet ctx.layer_name_to_index layer_name with
    | none => none
    | some layer_index =>
      match odGet ctx.layer_index_to_stage layer_index with
      | none => none
      | some stage_index =>
        match ctx.stages.get? stage_index with
        | none => none
        | some stage => stage.map_name param_name t_name

/-- `PipeLineSegmentContext.map_name_to_stage`. -/
def PipeLineSegmentContext.map_name_to_stage (ctx : PipeLineSegmentContext)
    (name : String) : Option Nat :=
  match extract_layer_name name with
  | none => none
  | some layer_name =>
    match odGet ctx.layer_name_to_index layer_name with
    | none => none
    | some layer_index => odGet ctx.layer_index_to_stage layer_index

/-- The bucket-filling loop of `segment_layers`. -/
def segLayersFold (ctx : PipeLineSegmentContext) :
    List String → List (List (Nat × String)) →
    Option (List (List (Nat × String)))
  | [], buckets => some buckets
  | layer_name :: rest, buckets =>
    match odGet ctx.layer_name_to_index layer_name with
    | none => none
    | some idx =>
      match odGet ctx.layer_index_to_stage idx with
      | none => none
      | some s =>
        segLayersFold ctx rest
          (buckets.set s ((buckets.getD s []) ++ [(idx, layer_name)]))

/-- Python `sorted` on `(layer_index, layer_name)` tuples
(lexicographic tuple comparison). -/
def pairSort (l : List (Nat × String)) : List (Nat × String) :=
  List.insertionSort
    (fun a b : Nat × String =>
      a.1 < b.1 ∨ (a.1 = b.1 ∧ strLe a.2 b.2 = true)) l

/-- `PipeLineSegmentContext.segment_layers`. -/
def PipeLineSegmentContext.segment_layers (ctx : PipeLineSegmentContext)
    (layer_names : List String) : Option (List (List String)) :=
  (segLayersFold ctx layer_names (List.replicate ctx.pp_degree [])).map
    (fun buckets => buckets.map (fun e => (pairSort e).map Prod.snd))

/-! ## Ordered-dictionary lemmas -/

theorem odGet_odSet_self {κ α : Type} [DecidableEq κ] :
    ∀ (d : List (κ × α)) (k : κ) (v : α), odGet (odSet d k v) k = some v := by
  intro d
  induction d with
  | nil => intro k v; simp [odSet, odGet]
  | cons p t ih =>
    intro k v
    obtain ⟨k', v'⟩ := p
    simp only [odSet]
    by_cases h : k' = k
    · rw [if_pos h]; simp [odGet, h]
    · rw [if_neg h]; simp only [odGet, if_neg h]; exact ih k v

theorem odGet_odSet_ne {κ α : Type} [DecidableEq κ] :
    ∀ (d : List (κ × α)) (k k' : κ) (v : α), k ≠ k' →
      odGet (odSet d k v) k' = odGet d k' := by
  intro d
  induction d with
  | nil => intro k k' v h; simp [odSet, odGet, h]
  | cons p t ih =>
    intro k k' v h
    obtain ⟨k₀, v₀⟩ := p
    simp only [odSet]
    by_cases h0 : k₀ = k
    · subst h0
      rw [if_pos rfl]
      simp [odGet, if_neg h]
    · rw [if_neg h0]
      simp only [odGet]
      by_cases h1 : k₀ = k'
      · rw [if_pos h1, if_pos h1]
      · rw [if_neg h1, if_neg h1]; exact ih k k' v h

theorem odSet_self_eq {κ α : Type} [DecidableEq κ] :
    ∀ (d : List (κ × α)) (k : κ) (v : α), odGet d k = some v →
      odSet d k v = d := by
  intro d
  induction d with
  | nil => intro k v h; simp [odGet] at h
  | cons p t ih =>
    intro k v h
    obtain ⟨k₀, v₀⟩ := p
    simp only [odGet] at h
    simp only [odSet]
    by_cases h0 : k₀ = k
    · rw [if_pos h0]
      rw [if_pos h0] at h
      injection h with h
      rw [h]
    · rw [if_neg h0]
      rw [if_neg h0] at h
      rw [ih k v h]

/-! ## Claim C9 -/

/-- **C9**: `Stage.map_name(raw_name, tensor_name)` returns the canonical
name `n` iff `raw_name` is a key of the stage's `_param_to_tname` table
whose recorded entry is exactly `(tensor_name, n)`; in every other case
the call fails (assertion, modelled `none`).  The model is pure, so the
table is trivially unchanged by a failing lookup. -/
theorem claim_C9_map_name_guard :
    ∀ (st : PipeLineStage) (param_name t_name n : String),
      st.map_name param_name t_name = some n ↔
        odGet st.param_to_tname param_name = some (t_name, n) := by
  intro st p t n
  unfold PipeLineStage.map_name
  cases h : odGet st.param_to_tname p with
  | none => simp
  | some v =>
    obtain ⟨tn, nn⟩ := v
    simp only
    by_cases htn : tn = t
    · subst htn
      simp
    · rw [if_neg htn]
      simp [htn]

/-! ## Claim C6: occurrence grouping in the renamer -/

theorem data_append (s t : String) : (s ++ t).data = s.data ++ t.data := rfl

theorem natStr_injective (m n : Nat) (h : natStr m = natStr n) : m = n := by
  unfold natStr at h
  injection h with h
  exact natDigits_injective m n h

theorem natDigits_ne_nil (n : Nat) : natDigits n ≠ [] := by
  rw [natDigits_eq]
  by_cases h : n < 10
  · rw [if_pos h]; simp
  · rw [if_neg h]; simp

theorem intStr_injective (i j : Int) (h : intStr i = intStr j) : i = j := by
  unfold intStr at h
  split_ifs at h with hi hj hj
  · have hd := congrArg String.data h
    rw [data_append, data_append] at hd
    simp only [natStr] at hd
    injection hd with _ hd
    have := natDigits_injective _ _ hd
    omega
  · exfalso
    have hd := congrArg String.data h
    rw [data_append] at hd
    simp only [natStr] at hd
    have hne := natDigits_ne_nil j.toNat
    cases hnd : natDigits j.toNat with
    | nil => exact hne hnd
    | cons c cs =>
      rw [hnd] at hd
      have hc : c = '-' := by
        have : ('-' : Char) :: (natDigits (-i).toNat) = c :: cs := hd
        injection this with h1 _
        exact h1.symm
      have := natDigits_all_digits j.toNat c (by simp [hnd])
      rw [hc] at this
      exact absurd this (by decide)
  · exfalso
    have hd := congrArg String.data h
    rw [data_append] at hd
    simp only [natStr] at hd
    have hne := natDigits_ne_nil i.toNat
    cases hnd : natDigits i.toNat with
    | nil => exact hne hnd
    | cons c cs =>
      rw [hnd] at hd
      have hc : c = '-' := by
        have : c :: cs = ('-' : Char) :: (natDigits (-j).toNat) := hd
        injection this
      have := natDigits_all_digits i.toNat c (by simp [hnd])
      rw [hc] at this
      exact absurd this (by decide)
  · have := natStr_injective _ _ h
    omega

/-- Two lists appended to arbitrary tails can only be equal when one list
begins with the other. -/
theorem startsWith_of_append_eq [DecidableEq α] :
    ∀ (l1 l2 x y : List α), l1 ++ x = l2 ++ y →
      listStartsWith l1 l2 = true ∨ listStartsWith l2 l1 = true := by
  intro l1
  induction l1 with
  | nil => intro l2 x y _; left; rfl
  | cons a t ih =>
    intro l2 x y h
    cases l2 with
    | nil => right; rfl
    | cons b u =>
      rw [List.cons_append, List.cons_append] at h
      injection h with h1 h2
      subst h1
      rcases ih u x y h2 with hl | hr
      · left; simp only [listStartsWith, if_pos rfl]; exact hl
      · right; simp only [listStartsWith, if_pos rfl]; exact hr

/-- No role key followed by `"_"` is a prefix of a different role key
followed by `"_"` (checked over the whole table). -/
theorem roleTable_sep :
    ∀ k1 ∈ roleTable, ∀ k2 ∈ roleTable, k1 ≠ k2 →
      listStartsWith (k1 ++ "_").data (k2 ++ "_").data = false := by decide

theorem roleKey_append_ne (k1 k2 : String) (h1 : k1 ∈ roleTable)
    (h2 : k2 ∈ roleTable) (hne : k1 ≠ k2) (a b : String) :
    k1 ++ "_" ++ a ≠ k2 ++ "_" ++ b := by
  intro h
  have hd : (k1 ++ "_").data ++ a.data = (k2 ++ "_").data ++ b.data := by
    have hh := congrArg String.data h
    rw [data_append, data_append] at hh
    exact hh
  rcases startsWith_of_append_eq _ _ _ _ hd with hsw | hsw
  · rw [roleTable_sep k1 h1 k2 h2 hne] at hsw
    cases hsw
  · rw [roleTable_sep k2 h2 k1 h1 (fun hh => hne hh.symm)] at hsw
    cases hsw

theorem getLayerRole_mem (l k : String) (h : getLayerRole l = some k) :
    k ∈ roleTable :=
  List.mem_of_find?_eq_some h

/-! Structural facts about `getNextScope`. -/

theorem getNextScope_last (s : LayerNameScope) (L c : String) :
    (s.getNextScope L c).lastLayerId = L ∧
      (s.getNextScope L c).lastOldName = c := by
  obtain ⟨p, t, idx, lastL, lastO, subs⟩ := s
  simp only [LayerNameScope.getNextScope]
  by_cases h : c ≠ lastO ∨ L ≠ lastL
  · rw [if_pos h]
    exact ⟨rfl, rfl⟩
  · rw [if_neg h]
    push_neg at h
    exact ⟨h.2.symm, h.1.symm⟩

theorem getNextScope_pfx_template (s : LayerNameScope) (L c : String) :
    (s.getNextScope L c).pfx = s.pfx ∧
      (s.getNextScope L c).template = s.template := by
  obtain ⟨p, t, idx, lastL, lastO, subs⟩ := s
  simp only [LayerNameScope.getNextScope]
  by_cases h : c ≠ lastO ∨ L ≠ lastL
  · rw [if_pos h]; exact ⟨rfl, rfl⟩
  · rw [if_neg h]; exact ⟨rfl, rfl⟩

/-- **Code-level C6 fact**: `get_next_scope` advances the counter iff the
`(layer_id, first_component)` pair differs from this scope's last call. -/
theorem getNextScope_index (s : LayerNameScope) (L c : String) :
    ((c ≠ s.lastOldName ∨ L ≠ s.lastLayerId) →
      (s.getNextScope L c).index = s.index + 1) ∧
    ((c = s.lastOldName ∧ L = s.lastLayerId) → s.getNextScope L c = s) := by
  obtain ⟨p, t, idx, lastL, lastO, subs⟩ := s
  simp only [LayerNameScope.getNextScope, LayerNameScope.index,
    LayerNameScope.lastOldName, LayerNameScope.lastLayerId]
  constructor
  · intro h
    rw [if_pos h]
  · rintro ⟨rfl, rfl⟩
    rw [if_neg (by simp)]

/-- Reachable renamer states: a stage's root scope has an empty prefix
and no template, and every cached child under key `k` carries an empty
prefix and the template of role `k`. -/
def ScopeWF (top : LayerNameScope) : Prop :=
  top.pfx = "" ∧ top.template = none ∧
  ∀ k c, odGet top.subScopes k = some c → c.pfx = "" ∧ c.template = some k

theorem ScopeWF_topScope : ScopeWF topScope :=
  ⟨rfl, rfl, fun k c h => by simp [topScope, LayerNameScope.subScopes, odGet] at h⟩

theorem getLayerName_of_role (s : LayerNameScope) (k : String)
    (hp : s.pfx = "") (ht : s.template = some k) :
    s.getLayerName = k ++ "_" ++ intStr s.index := by
  obtain ⟨p, t, idx, lastL, lastO, subs⟩ := s
  simp only [LayerNameScope.pfx] at hp
  simp only [LayerNameScope.template] at ht
  subst hp
  subst ht
  simp [LayerNameScope.getLayerName, LayerNameScope.index, LayerNameScope.pfx,
    LayerNameScope.template]

theorem getLayerName_of_top (s : LayerNameScope)
    (hp : s.pfx = "") (ht : s.template = none) : s.getLayerName = "" := by
  obtain ⟨p, t, idx, lastL, lastO, subs⟩ := s
  simp only [LayerNameScope.pfx] at hp
  simp only [LayerNameScope.template] at ht
  subst hp
  subst ht
  simp [LayerNameScope.getLayerName, LayerNameScope.pfx, LayerNameScope.template]

/-- The cached-or-fresh child scope of `get_sub_scope`. -/
def childOf (top : LayerNameScope) (k : String) : LayerNameScope :=
  match odGet top.subScopes k with
  | some c0 => c0
  | none => .mk top.getLayerName (some k) (-1) "" "" []

/-- `top` with its children replaced. -/
def scopeWithSubs : LayerNameScope → List (String × LayerNameScope) →
    LayerNameScope
  | .mk p t idx lastL lastO _, subs => .mk p t idx lastL lastO subs

theorem scopeWithSubs_subScopes (s : LayerNameScope)
    (l : List (String × LayerNameScope)) :
    (scopeWithSubs s l).subScopes = l := by
  obtain ⟨p, t, idx, lastL, lastO, subs⟩ := s
  rfl

theorem scopeWithSubs_pfx (s : LayerNameScope)
    (l : List (String × LayerNameScope)) : (scopeWithSubs s l).pfx = s.pfx := by
  obtain ⟨p, t, idx, lastL, lastO, subs⟩ := s
  rfl

theorem scopeWithSubs_template (s : LayerNameScope)
    (l : List (String × LayerNameScope)) :
    (scopeWithSubs s l).template = s.template := by
  obtain ⟨p, t, idx, lastL, lastO, subs⟩ := s
  rfl

theorem scopeWithSubs_self (s : LayerNameScope) :
    scopeWithSubs s s.subScopes = s := by
  obtain ⟨p, t, idx, lastL, lastO, subs⟩ := s
  rfl

/-- Unfolding of `getNewLayerName` when the role is known. -/
theorem getNewLayerName_eq (top : LayerNameScope) (L c k : String)
    (hrole : getLayerRole c = some k) :
    getNewLayerName top L c =
      some (((childOf top k).getNextScope L c).getLayerName,
        scopeWithSubs top
          (odSet top.subScopes k ((childOf top k).getNextScope L c))) := by
  obtain ⟨p, t, idx, lastL, lastO, subs⟩ := top
  unfold getNewLayerName childOf
  rw [hrole]
  rfl

theorem childOf_shape (top : LayerNameScope) (k : String) (hwf : ScopeWF top) :
    (childOf top k).pfx = "" ∧ (childOf top k).template = some k := by
  obtain ⟨hp, ht, hsubs⟩ := hwf
  unfold childOf
  cases h : odGet top.subScopes k with
  | some c0 => exact hsubs k c0 h
  | none =>
    constructor
    · simp only [LayerNameScope.pfx]
      exact getLayerName_of_top top hp ht
    · rfl

theorem ScopeWF_update (top : LayerNameScope) (hwf : ScopeWF top)
    (k : String) (c : LayerNameScope) (hc : c.pfx = "" ∧ c.template = some k) :
    ScopeWF (scopeWithSubs top (odSet top.subScopes k c)) := by
  obtain ⟨hp, ht, hsubs⟩ := hwf
  refine ⟨by rw [scopeWithSubs_pfx]; exact hp,
    by rw [scopeWithSubs_template]; exact ht, ?_⟩
  intro k' c' hget
  rw [scopeWithSubs_subScopes] at hget
  by_cases hk : k = k'
  · subst hk
    rw [odGet_odSet_self] at hget
    injection hget with hget
    subst hget
    exact hc
  · rw [odGet_odSet_ne _ _ _ _ hk] at hget
    exact hsubs k' c' hget

theorem append_role_inj (k a b : String) (h : k ++ "_" ++ a = k ++ "_" ++ b) :
    a = b := by
  have hd := congrArg String.data h
  rw [data_append, data_append, data_append, data_append] at hd
  have h3 : a.data = b.data := by simpa using hd
  obtain ⟨da⟩ := a
  obtain ⟨db⟩ := b
  exact congrArg String.mk h3

/-- **C6**: within one stage's renaming pass, for two consecutively
presented names: equal `(layer_id, first_component)` pairs reuse the same
canonical layer-name prefix with the renamer state unchanged (the scope
counter is not advanced); a differing pair yields a distinct canonical
prefix, and when both components resolve to the same structural role the
serving scope's counter advances by exactly one.  At the `get_next_scope`
level, the counter advances iff `(layer_id, old_layer_name)` differs from
that scope's recorded last call. -/
theorem claim_C6_occurrence_grouping
    (top : LayerNameScope) (L1 c1 L2 c2 r1 r2 : String)
    (s1 s2 : LayerNameScope)
    (hwf : ScopeWF top)
    (h1 : getNewLayerName top L1 c1 = some (r1, s1))
    (h2 : getNewLayerName s1 L2 c2 = some (r2, s2)) :
    ((L1 = L2 ∧ c1 = c2) → r2 = r1 ∧ s2 = s1) ∧
    (¬(L1 = L2 ∧ c1 = c2) → r2 ≠ r1) ∧
    (∀ k, getLayerRole c1 = some k → getLayerRole c2 = some k →
      ¬(L1 = L2 ∧ c1 = c2) →
      ∀ ch1 ch2, odGet s1.subScopes k = some ch1 →
        odGet s2.subScopes k = some ch2 → ch2.index = ch1.index + 1) ∧
    (∀ (s : LayerNameScope) (L c : String),
      ((c ≠ s.lastOldName ∨ L ≠ s.lastLayerId) →
        (s.getNextScope L c).index = s.index + 1) ∧
      ((c = s.lastOldName ∧ L = s.lastLayerId) → s.getNextScope L c = s)) := by
  -- call 1 analysis
  cases hrole1 : getLayerRole c1 with
  | none =>
    rw [getNewLayerName] at h1
    rw [hrole1] at h1
    cases h1
  | some k1 =>
  rw [getNewLayerName_eq top L1 c1 k1 hrole1] at h1
  injection h1 with h1
  injection h1 with hr1 hs1
  have hch1 := childOf_shape top k1 hwf
  have hch1p : ((childOf top k1).getNextScope L1 c1).pfx = "" := by
    rw [(getNextScope_pfx_template _ _ _).1]; exact hch1.1
  have hch1t : ((childOf top k1).getNextScope L1 c1).template = some k1 := by
    rw [(getNextScope_pfx_template _ _ _).2]; exact hch1.2
  have hch1last := getNextScope_last (childOf top k1) L1 c1
  have hr1' : r1 = k1 ++ "_" ++
      intStr ((childOf top k1).getNextScope L1 c1).index := by
    rw [← hr1]; exact getLayerName_of_role _ _ hch1p hch1t
  have hwf1 : ScopeWF s1 := by
    rw [← hs1]
    exact ScopeWF_update top hwf k1 _ ⟨hch1p, hch1t⟩
  have hs1subs : s1.subScopes =
      odSet top.subScopes k1 ((childOf top k1).getNextScope L1 c1) := by
    rw [← hs1, scopeWithSubs_subScopes]
  -- call 2 analysis
  cases hrole2 : getLayerRole c2 with
  | none =>
    rw [getNewLayerName] at h2
    rw [hrole2] at h2
    cases h2
  | some k2 =>
  rw [getNewLayerName_eq s1 L2 c2 k2 hrole2] at h2
  injection h2 with h2
  injection h2 with hr2 hs2
  have hch2 := childOf_shape s1 k2 hwf1
  have hch2p : ((childOf s1 k2).getNextScope L2 c2).pfx = "" := by
    rw [(getNextScope_pfx_template _ _ _).1]; exact hch2.1
  have hch2t : ((childOf s1 k2).getNextScope L2 c2).template = some k2 := by
    rw [(getNextScope_pfx_template _ _ _).2]; exact hch2.2
  have hr2' : r2 = k2 ++ "_" ++
      intStr ((childOf s1 k2).getNextScope L2 c2).index := by
    rw [← hr2]; exact getLayerName_of_role _ _ hch2p hch2t
  have hs2subs : s2.subScopes =
      odSet s1.subScopes k2 ((childOf s1 k2).getNextScope L2 c2) := by
    rw [← hs2, scopeWithSubs_subScopes]
  refine ⟨?_, ?_, ?_, getNextScope_index⟩
  · -- identical pair: same prefix, state unchanged
    rintro ⟨rfl, rfl⟩
    have hkk : k2 = k1 := by
      rw [hrole1] at hrole2
      injection hrole2 with hk
      exact hk.symm
    subst hkk
    have hlk : odGet s1.subScopes k2 = some ((childOf top k2).getNextScope L1 c1) := by
      rw [hs1subs, odGet_odSet_self]
    have hchild2 : childOf s1 k2 = (childOf top k2).getNextScope L1 c1 := by
      simp only [childOf, hlk]
    have hnoadv : ((childOf top k2).getNextScope L1 c1).getNextScope L1 c1 =
        (childOf top k2).getNextScope L1 c1 :=
      (getNextScope_index _ _ _).2 ⟨hch1last.2.symm, hch1last.1.symm⟩
    constructor
    · rw [hr2', hr1', hchild2, hnoadv]
    · rw [← hs2, hchild2, hnoadv, odSet_self_eq _ _ _ hlk]
      exact scopeWithSubs_self s1
  · -- differing pair: distinct prefixes
    intro hne
    by_cases hk : k2 = k1
    · subst hk
      have hlk : odGet s1.subScopes k2 =
          some ((childOf top k2).getNextScope L1 c1) := by
        rw [hs1subs, odGet_odSet_self]
      have hchild2 : childOf s1 k2 = (childOf top k2).getNextScope L1 c1 := by
        simp only [childOf, hlk]
      have hcond : c2 ≠ ((childOf top k2).getNextScope L1 c1).lastOldName ∨
          L2 ≠ ((childOf top k2).getNextScope L1 c1).lastLayerId := by
        rw [hch1last.1, hch1last.2]
        by_cases hl : L1 = L2
        · subst hl
          left
          intro hcc
          exact hne ⟨rfl, hcc.symm⟩
        · right
          exact fun hll => hl hll.symm
      have hadv := (getNextScope_index _ L2 c2).1 hcond
      intro hcontra
      rw [hr2', hr1', hchild2] at hcontra
      have := append_role_inj _ _ _ hcontra
      have := intStr_injective _ _ this
      rw [hadv] at this
      omega
    · intro hcontra
      rw [hr2', hr1'] at hcontra
      exact roleKey_append_ne k2 k1 (getLayerRole_mem _ _ hrole2)
        (getLayerRole_mem _ _ hrole1) hk _ _ hcontra
  · -- same role, differing pair: the counter advances by one
    intro k hk1 hk2 hne ch1 ch2 hget1 hget2
    have hkk1 : k1 = k := Option.some.inj hk1
    have hkk2 : k2 = k := Option.some.inj hk2
    subst hkk1
    subst hkk2
    have hlk : odGet s1.subScopes k2 =
        some ((childOf top k2).getNextScope L1 c1) := by
      rw [hs1subs, odGet_odSet_self]
    rw [hlk] at hget1
    injection hget1 with hget1
    have hchild2 : childOf s1 k2 = (childOf top k2).getNextScope L1 c1 := by
      simp only [childOf, hlk]
    have hlk2 : odGet s2.subScopes k2 =
        some ((childOf s1 k2).getNextScope L2 c2) := by
      rw [hs2subs, odGet_odSet_self]
    rw [hlk2] at hget2
    injection hget2 with hget2
    have hcond : c2 ≠ ((childOf top k2).getNextScope L1 c1).lastOldName ∨
        L2 ≠ ((childOf top k2).getNextScope L1 c1).lastLayerId := by
      rw [hch1last.1, hch1last.2]
      by_cases hl : L1 = L2
      · subst hl
        left
        intro hcc
        exact hne ⟨rfl, hcc.symm⟩
      · right
        exact fun hll => hl hll.symm
    have hadv := (getNextScope_index _ L2 c2).1 hcond
    rw [← hget2, ← hget1, hchild2, hadv]

theorem claim_C6_witness :
    ScopeWF topScope ∧
    getNewLayerName topScope "ernie.layers.0" "linear_3" =
      some ("linear_0", LayerNameScope.mk "" none (-1) "" ""
        [("linear",
          LayerNameScope.mk "" (some "linear") 0 "ernie.layers.0" "linear_3" [])]) ∧
    getNewLayerName
        (LayerNameScope.mk "" none (-1) "" ""
          [("linear",
            LayerNameScope.mk "" (some "linear") 0 "ernie.layers.0" "linear_3" [])])
        "ernie.layers.0" "linear_3" =
      some ("linear_0", LayerNameScope.mk "" none (-1) "" ""
        [("linear",
          LayerNameScope.mk "" (some "linear") 0 "ernie.layers.0" "linear_3" [])]) := by
  have h := claim_C6_occurrence_grouping topScope "ernie.layers.0" "linear_3"
    "ernie.layers.0" "linear_3" "linear_0" "linear_0"
    (LayerNameScope.mk "" none (-1) "" ""
      [("linear",
        LayerNameScope.mk "" (some "linear") 0 "ernie.layers.0" "linear_3" [])])
    (LayerNameScope.mk "" none (-1) "" ""
      [("linear",
        LayerNameScope.mk "" (some "linear") 0 "ernie.layers.0" "linear_3" [])])
    ScopeWF_topScope rfl rfl
  obtain ⟨hsame, -, -, -⟩ := h
  obtain ⟨-, -⟩ := hsame ⟨rfl, rfl⟩
  exact ⟨ScopeWF_topScope, rfl, rfl⟩

/-! ## Claim C10: renaming is driven by the TensorName -/

/-- The first `.`-separated component (`old_name.split(".")[0]`). -/
def firstComponent (old_name : String) : String :=
  (splitDot old_name).headD ""

theorem getNewLayerName_none (top : LayerNameScope) (L c : String)
    (h : getLayerRole c = none) : getNewLayerName top L c = none := by
  obtain ⟨p, t, idx, lastL, lastO, subs⟩ := top
  unfold getNewLayerName
  rw [h]

/-- `get_new_param_name` succeeds exactly when the first component of the
(tensor) name carries one of the seven role prefixes. -/
theorem getNewParamName_isSome (top : LayerNameScope) (L t : String) :
    (getNewParamName top L t).isSome = (getLayerRole (firstComponent t)).isSome := by
  unfold getNewParamName firstComponent
  dsimp only
  cases hr : getLayerRole ((splitDot t).headD "") with
  | none =>
    rw [getNewLayerName_none top L ((splitDot t).headD "") hr]
    rfl
  | some k =>
    rw [getNewLayerName_eq top L ((splitDot t).headD "") k hr]
    rfl

theorem renameParams_isSome_iff (ln : String) :
    ∀ (ps : List (String × String)) (top : LayerNameScope)
      (acc : List (String × (String × String))),
      (renameParams top ln ps acc).isSome = true ↔
        ∀ p ∈ ps, (getLayerRole (firstComponent p.2)).isSome = true := by
  intro ps
  induction ps with
  | nil => intro top acc; simp [renameParams]
  | cons p rest ih =>
    intro top acc
    obtain ⟨pn, tn⟩ := p
    rw [renameParams]
    cases hg : getNewParamName top ln tn with
    | none =>
      have hrole : (getLayerRole (firstComponent tn)).isSome = false := by
        have h := getNewParamName_isSome top ln tn
        rw [hg] at h
        exact h.symm
      simp only [Option.isSome_none]
      constructor
      · intro hfalse; cases hfalse
      · intro hall
        have := hall (pn, tn) (by simp)
        rw [hrole] at this
        cases this
    | some r =>
      obtain ⟨n_name, top₂⟩ := r
      have hrole : (getLayerRole (firstComponent tn)).isSome = true := by
        have h := getNewParamName_isSome top ln tn
        rw [hg] at h
        exact h.symm
      rw [ih top₂ (odSet acc pn (tn, n_name))]
      constructor
      · intro hall q hq
        rcases List.mem_cons.mp hq with hq | hq
        · subst hq; exact hrole
        · exact hall q hq
      · intro hall q hq
        exact hall q (by simp [hq])

theorem renameLayers_isSome_iff :
    ∀ (ls : List (String × PipeLinelayer)) (top : LayerNameScope)
      (acc : List (String × (String × String))),
      (renameLayers top ls acc).isSome = true ↔
        ∀ le ∈ ls, ∀ p ∈ le.2.params,
          (getLayerRole (firstComponent p.2)).isSome = true := by
  intro ls
  induction ls with
  | nil => intro top acc; simp [renameLayers]
  | cons e rest ih =>
    intro top acc
    obtain ⟨nm, layer⟩ := e
    rw [renameLayers]
    cases hrp : renameParams top layer.layer_name layer.params acc with
    | none =>
      have hbad : ¬∀ p ∈ layer.params,
          (getLayerRole (firstComponent p.2)).isSome = true := by
        intro hall
        have := (renameParams_isSome_iff layer.layer_name layer.params top acc).mpr hall
        rw [hrp] at this
        cases this
      simp only [Option.isSome_none]
      constructor
      · intro hfalse; cases hfalse
      · intro hall
        exact absurd (fun p hp => hall (nm, layer) (by simp) p hp) hbad
    | some r =>
      obtain ⟨top₂, acc₂⟩ := r
      have hok : ∀ p ∈ layer.params,
          (getLayerRole (firstComponent p.2)).isSome = true :=
        (renameParams_isSome_iff layer.layer_name layer.params top acc).mp
          (by rw [hrp]; rfl)
      rw [ih top₂ acc₂]
      constructor
      · intro hall q hq p hp
        rcases List.mem_cons.mp hq with hq | hq
        · subst hq; exact hok p hp
        · exact hall q hq p hp
      · intro hall q hq p hp
        exact hall q (by simp [hq]) p hp

theorem renameSegments_isSome_iff :
    ∀ (segs : List (Nat × PipeLineSegment)) (top : LayerNameScope)
      (acc : List (String × (String × String))),
      (renameSegments top segs acc).isSome = true ↔
        ∀ se ∈ segs, se.2.cur_index = se.2.end_index ∧
          ∀ le ∈ se.2.seg_layers, ∀ p ∈ le.2.params,
            (getLayerRole (firstComponent p.2)).isSome = true := by
  intro segs
  induction segs with
  | nil => intro top acc; simp [renameSegments]
  | cons e rest ih =>
    intro top acc
    obtain ⟨si, seg⟩ := e
    rw [renameSegments]
    by_cases hc : seg.cur_index = seg.end_index
    · rw [show seg.layersChecked = some seg.seg_layers from by
        unfold PipeLineSegment.layersChecked; rw [if_pos hc]]
      dsimp only
      cases hrl : renameLayers top seg.seg_layers acc with
      | none =>
        have hbad : ¬∀ le ∈ seg.seg_layers, ∀ p ∈ le.2.params,
            (getLayerRole (firstComponent p.2)).isSome = true := by
          intro hall
          have := (renameLayers_isSome_iff seg.seg_layers top acc).mpr hall
          rw [hrl] at this
          cases this
        simp only [Option.isSome_none]
        constructor
        · intro hfalse; cases hfalse
        · intro hall
          exact absurd (hall (si, seg) (by simp)).2 hbad
      | some r =>
        obtain ⟨top₂, acc₂⟩ := r
        have hok := (renameLayers_isSome_iff seg.seg_layers top acc).mp
          (by rw [hrl]; rfl)
        rw [ih top₂ acc₂]
        constructor
        · intro hall q hq
          rcases List.mem_cons.mp hq with hq | hq
          · subst hq; exact ⟨hc, hok⟩
          · exact hall q hq
        · intro hall q hq
          exact hall q (by simp [hq])
    · rw [show seg.layersChecked = none from by
        unfold PipeLineSegment.layersChecked; rw [if_neg hc]]
      dsimp only
      simp only [Option.isSome_none]
      constructor
      · intro hfalse; cases hfalse
      · intro hall
        exact absurd (hall (si, seg) (by simp)).1 hc

/-- **C10 (implicit)**: renaming is driven by the TensorName, not the
RawParamName.  (1) `get_new_param_name` succeeds iff the TensorName's
first `.`-component starts with one of the seven role prefixes of
`prefix_to_template` (so under that precondition the `get_sub_scope`
assertion is unreachable); (2) each `build_name_mapping` step feeds only
the TensorName to the renamer, the RawParamName serving only as table
key; (3) `build_name_mapping` succeeds iff every segment is complete and
every TensorName in it carries a known role prefix; (4) the renamer
state evolution is a function of the TensorName sequence alone. -/
theorem claim_C10_tensor_driven :
    (∀ (top : LayerNameScope) (L t : String),
      (getNewParamName top L t).isSome =
        (getLayerRole (firstComponent t)).isSome) ∧
    (∀ (top : LayerNameScope) (ln raw tn : String)
        (rest : List (String × String))
        (acc : List (String × (String × String))),
      renameParams top ln ((raw, tn) :: rest) acc =
        match getNewParamName top ln tn with
        | none => none
        | some r => renameParams r.2 ln rest (odSet acc raw (tn, r.1))) ∧
    (∀ st : PipeLineStage,
      (st.build_name_mapping).isSome = true ↔
        ∀ se ∈ st.segments, se.2.cur_index = se.2.end_index ∧
          ∀ le ∈ se.2.seg_layers, ∀ p ∈ le.2.params,
            (getLayerRole (firstComponent p.2)).isSome = true) ∧
    (∀ (ln : String) (ps1 ps2 : List (String × String))
        (top : LayerNameScope)
        (acc1 acc2 : List (String × (String × String))),
      ps1.map Prod.snd = ps2.map Prod.snd →
      Option.map Prod.fst (renameParams top ln ps1 acc1) =
        Option.map Prod.fst (renameParams top ln ps2 acc2)) := by
  refine ⟨getNewParamName_isSome, ?_, ?_, ?_⟩
  · intro top ln raw tn rest acc
    rw [renameParams]
    cases getNewParamName top ln tn with
    | none => rfl
    | some r => rfl
  · intro st
    have h := renameSegments_isSome_iff st.segments st.rename_mgr st.param_to_tname
    unfold PipeLineStage.build_name_mapping
    cases hrs : renameSegments st.rename_mgr st.segments st.param_to_tname with
    | none =>
      rw [hrs] at h
      simpa using h
    | some r =>
      rw [hrs] at h
      simpa using h
  · intro ln ps1
    induction ps1 with
    | nil =>
      intro ps2 top acc1 acc2 hmap
      cases ps2 with
      | nil => rfl
      | cons q qs => cases hmap
    | cons p ps ih =>
      intro ps2 top acc1 acc2 hmap
      cases ps2 with
      | nil => cases hmap
      | cons q qs =>
        obtain ⟨pn, tn⟩ := p
        obtain ⟨qn, sn⟩ := q
        simp only [List.map_cons, List.cons.injEq] at hmap
        obtain ⟨hts, hrest⟩ := hmap
        subst hts
        rw [renameParams, renameParams]
        cases getNewParamName top ln tn with
        | none => rfl
        | some r => exact ih qs r.2 _ _ hrest

theorem claim_C10_witness :
    (([("a", "linear_1.w")] : List (String × String)).map Prod.snd =
      ([("b", "linear_1.w")] : List (String × String)).map Prod.snd) ∧
    Option.map Prod.fst
        (renameParams topScope "ernie.layers.0" [("a", "linear_1.w")] []) =
      Option.map Prod.fst
        (renameParams topScope "ernie.layers.0" [("b", "linear_1.w")] []) := by
  have h := claim_C10_tensor_driven
  exact ⟨rfl, h.2.2.2 "ernie.layers.0" [("a", "linear_1.w")]
    [("b", "linear_1.w")] topScope [] [] rfl⟩

/-! ## Claim C7: ordinal bijection of `index_layer` -/

/-- The catalogue layer-name shape of claim C7:
embedding, `N` transformer blocks, final norm, head. -/
def blockName (k : Nat) : String := "ernie.layers." ++ natStr k

def standardLayerKeys (N : Nat) : List String :=
  "ernie.embed_tokens" :: ((List.range N).map blockName ++ ["ernie.norm", "lm_head"])

theorem blockName_ne (k : Nat) (s : String)
    (h13 : s.data.take 13 ≠ "ernie.layers.".data) : blockName k ≠ s := by
  intro h
  apply h13
  have hd := congrArg (fun u => u.data.take 13) h
  simp only [blockName, data_append] at hd
  rw [← hd, List.take_left' (by decide : ("ernie.layers.".data).length = 13)]

theorem layersMatchDigits_block (ds : List Char)
    (hds : ∀ c ∈ ds, c.isDigit = true) (hne : ds ≠ []) :
    layersMatchDigits ("ernie.layers.".data ++ ds) = some ds := by
  have hsplit : "ernie.layers.".data ++ ds = "ernie.layers".data ++ ('.' :: ds) := by
    rw [show "ernie.layers.".data = "ernie.layers".data ++ ['.'] from by decide]
    exact List.append_assoc _ _ _
  unfold layersMatchDigits
  rw [hsplit, listStartsWith_append, if_pos rfl,
    show ("ernie.layers".data ++ ('.' :: ds)).drop 12 = '.' :: ds from by
      rw [← show ("ernie.layers".data).length = 12 from by decide]
      exact List.drop_left _ _]
  simp only
  rw [takeWhile_all ds hds]
  rw [if_neg (by simpa using hne)]

theorem searchLayersDigits_at_start (cs : List Char) (ds : List Char)
    (h : layersMatchDigits cs = some ds) (hne : cs ≠ []) :
    searchLayersDigits cs = some ds := by
  cases cs with
  | nil => exact absurd rfl hne
  | cons c rest =>
    unfold searchLayersDigits
    rw [h]

theorem index_layer_blockName (k tln : Nat) :
    index_layer (blockName k) tln = some (k + 1) := by
  unfold index_layer
  rw [if_neg (blockName_ne k _ (by decide)), if_neg (blockName_ne k _ (by decide)),
    if_neg (blockName_ne k _ (by decide))]
  have hsearch : searchLayersDigits (blockName k).data = some (natDigits k) := by
    apply searchLayersDigits_at_start
    · show layersMatchDigits ("ernie.layers.".data ++ natDigits k) = some (natDigits k)
      exact layersMatchDigits_block _ (natDigits_all_digits k) (natDigits_ne_nil k)
    · show ("ernie.layers.".data ++ natDigits k) ≠ []
      simp
  rw [hsearch, Option.map_some', parseDigits_natDigits]

theorem blockName_injective (k1 k2 : Nat) (h : blockName k1 = blockName k2) :
    k1 = k2 := by
  have hd := congrArg String.data h
  simp only [blockName, data_append] at hd
  have := List.append_cancel_left hd
  exact natDigits_injective _ _ (by simpa [natStr] using this)

theorem indexLayersFold_isSome (tln : Nat) :
    ∀ (names : List String) (n2i : List (String × Nat))
      (i2n : List (Nat × String)),
      (∀ nm ∈ names, (index_layer nm tln).isSome = true) →
      (indexLayersFold tln names n2i i2n).isSome = true := by
  intro names
  induction names with
  | nil => intro n2i i2n _; rfl
  | cons nm rest ih =>
    intro n2i i2n hall
    rw [indexLayersFold]
    cases hnm : index_layer nm tln with
    | none =>
      have := hall nm (by simp)
      rw [hnm] at this
      cases this
    | some idx => exact ih _ _ (fun q hq => hall q (by simp [hq]))

/-- **C7**: for a catalogue whose layer names are exactly the embedding,
blocks `0 .. N-1`, norm and head, with `transformer_layer_num` unset or
equal to `N`, `index_layer` assigns embedding → 0, block `k` → `k+1`,
norm → `N+1`, head → `N+2`, and the assignment is a bijection onto
`{0, …, N+2}` — the ordinal list is exactly `[0, …, N+2]` with no gaps or
duplicates, and `_index_layers` classifies every name. -/
theorem claim_C7_ordinal_bijection (N : Nat) :
    index_layer "ernie.embed_tokens" N = some 0 ∧
    index_layer "ernie.norm" N = some (N + 1) ∧
    index_layer "lm_head" N = some (N + 2) ∧
    (∀ k, k < N → index_layer (blockName k) N = some (k + 1)) ∧
    (standardLayerKeys N).map (fun nm => index_layer nm N) =
      (List.range (N + 3)).map some ∧
    (standardLayerKeys N).Nodup ∧
    (∀ cat : List (String × List (String × String)),
      cat.map Prod.fst = standardLayerKeys N →
      ctxTransformerLayerNum none cat = some N ∧
      ctxTransformerLayerNum (some N) cat = some N) ∧
    (indexLayersFold N (standardLayerKeys N) [] []).isSome = true := by
  have hmap : (standardLayerKeys N).map (fun nm => index_layer nm N) =
      (List.range (N + 3)).map some := by
    unfold standardLayerKeys
    rw [List.map_cons, List.map_append, List.map_map]
    have hblocks : (List.range N).map ((fun nm => index_layer nm N) ∘ blockName) =
        (List.range N).map (fun k => some (k + 1)) :=
      List.map_congr_left (fun k _ => index_layer_blockName k N)
    have hr3 : List.range (N + 3) =
        0 :: ((List.range N).map (fun k => k + 1) ++ [N + 1, N + 2]) := by
      rw [show N + 3 = (N + 2) + 1 from rfl, List.range_succ,
        show N + 2 = (N + 1) + 1 from rfl, List.range_succ,
        List.range_succ_eq_map]
      simp [Nat.succ_eq_add_one]
    rw [hblocks, hr3]
    simp only [List.map_cons, List.map_append, List.map_map]
    rfl
  refine ⟨rfl, rfl, rfl, fun k _ => index_layer_blockName k N, hmap, ?_, ?_, ?_⟩
  · have hnodup : ((List.range (N + 3)).map some).Nodup :=
      (List.nodup_range _).map (fun a b => Option.some.inj)
    rw [← hmap] at hnodup
    exact hnodup.of_map _
  · intro cat hcat
    have hlen : cat.length = N + 3 := by
      have := congrArg List.length hcat
      simpa [standardLayerKeys] using this
    constructor
    · unfold ctxTransformerLayerNum
      rw [hlen]
      simp
    · unfold ctxTransformerLayerNum
      dsimp only
      by_cases hN : 0 < N
      · rw [if_pos hN, if_pos (by rw [hlen])]
      · rw [if_neg hN, hlen]
        simp only [Nat.add_sub_cancel, Option.some.injEq]
  · apply indexLayersFold_isSome
    intro nm hnm
    unfold standardLayerKeys at hnm
    rcases List.mem_cons.mp hnm with rfl | hnm
    · rfl
    rcases List.mem_append.mp hnm with hnm | hnm
    · obtain ⟨k, _, rfl⟩ := List.mem_map.mp hnm
      rw [index_layer_blockName]
      rfl
    · rcases List.mem_cons.mp hnm with rfl | hnm
      · rfl
      · rcases List.mem_cons.mp hnm with rfl | hnm
        · rfl
        · cases hnm

theorem claim_C7_witness :
    (1 : Nat) < 2 ∧ index_layer (blockName 1) 2 = some 2 ∧
    ([("ernie.embed_tokens", ([] : List (String × String))),
      ("ernie.layers.0", []), ("ernie.layers.1", []),
      ("ernie.norm", []), ("lm_head", [])].map Prod.fst =
        standardLayerKeys 2) ∧
    ctxTransformerLayerNum (some 2)
      [("ernie.embed_tokens", ([] : List (String × String))),
       ("ernie.layers.0", []), ("ernie.layers.1", []),
       ("ernie.norm", []), ("lm_head", [])] = some 2 := by
  have h := claim_C7_ordinal_bijection 2
  refine ⟨by decide, h.2.2.2.1 1 (by decide), by decide, ?_⟩
  exact (h.2.2.2.2.2.2.1 _ (by decide)).2

/-! ## C8: round-robin scattering, stage bounds, and `segment_layers` -/

theorem getD_set_eq {α : Type} : ∀ (l : List α) (i : Nat) (v d : α), i < l.length →
    (l.set i v).getD i d = v
  | [], _, _, _, h => absurd h (by simp)
  | _ :: _, 0, _, _, _ => rfl
  | a :: t, i + 1, v, d, h => by
    simp only [List.set_cons_succ, List.getD_cons_succ]
    exact getD_set_eq t i v d (by simp at h; omega)

theorem getD_set_ne2 {α : Type} : ∀ (l : List α) (i j : Nat) (v d : α), i ≠ j →
    (l.set i v).getD j d = l.getD j d
  | [], _, _, _, _, _ => by simp
  | a :: t, 0, 0, v, d, h => absurd rfl h
  | a :: t, 0, j + 1, v, d, _ => by
    simp only [List.set_cons_zero, List.getD_cons_succ]
  | a :: t, i + 1, 0, v, d, _ => by
    simp only [List.set_cons_succ, List.getD_cons_zero]
  | a :: t, i + 1, j + 1, v, d, h => by
    simp only [List.set_cons_succ, List.getD_cons_succ]
    exact getD_set_ne2 t i j v d (by omega)

theorem getD_replicate {α : Type} : ∀ (n j : Nat) (v : α),
    (List.replicate n v).getD j v = v
  | 0, _, _ => by simp
  | n + 1, 0, _ => rfl
  | n + 1, j + 1, v => by
    simp only [List.replicate, List.getD_cons_succ]
    exact getD_replicate n j v

/-- The scatter loop appends pair `p` to bucket `p.1 % pp` and leaves every
other bucket alone, so bucket `s` collects exactly the ranges whose
enumeration index is congruent to `s` modulo `pp`, in order. -/
theorem scatter_foldl_getD (pp : Nat) :
    ∀ (l : List (Nat × (Nat × Nat))) (bs : List (List (Nat × Nat))) (s : Nat),
      bs.length = pp → s < pp →
      (l.foldl (scatterStep pp) bs).getD s [] =
        bs.getD s [] ++ (l.filter (fun p => p.1 % pp == s)).map Prod.snd := by
  intro l
  induction l with
  | nil => intro bs s _ _; simp
  | cons p l ih =>
    intro bs s hbs hs
    rw [List.foldl_cons,
      ih (scatterStep pp bs p) s (by rw [scatterStep_length]; exact hbs) hs]
    by_cases hps : p.1 % pp = s
    · have hcond : (p.1 % pp == s) = true := by simpa using hps
      have hset : (scatterStep pp bs p).getD s [] = bs.getD s [] ++ [p.2] := by
        unfold scatterStep
        rw [hps]
        exact getD_set_eq bs s _ [] (by rw [hbs]; exact hs)
      rw [hset, List.filter_cons, if_pos hcond, List.map_cons]
      simp [List.append_assoc]
    · have hcond : ¬((p.1 % pp == s) = true) := by simpa using hps
      have hset : (scatterStep pp bs p).getD s [] = bs.getD s [] := by
        unfold scatterStep
        exact getD_set_ne2 bs (p.1 % pp) s _ [] hps
      rw [hset, List.filter_cons, if_neg hcond]

theorem odGet_mem {κ α : Type} [DecidableEq κ] :
    ∀ (l : List (κ × α)) (k : κ) (v : α), odGet l k = some v → (k, v) ∈ l
  | [], k, v, h => by rw [odGet] at h; exact Option.noConfusion h
  | (k', v') :: t, k, v, h => by
    by_cases hk : k' = k
    · rw [odGet, if_pos hk] at h
      subst hk
      injection h with h
      subst h
      exact List.mem_cons_self _ _
    · rw [odGet, if_neg hk] at h
      exact List.mem_cons_of_mem _ (odGet_mem t k v h)

theorem mem_odSet {κ α : Type} [DecidableEq κ] :
    ∀ (l : List (κ × α)) (k : κ) (v : α) (p : κ × α),
      p ∈ odSet l k v → p ∈ l ∨ p = (k, v)
  | [], k, v, p, h => by
    rw [odSet] at h
    rcases List.mem_singleton.mp h with rfl
    exact Or.inr rfl
  | (k', v') :: t, k, v, p, h => by
    by_cases hk : k' = k
    · rw [odSet, if_pos hk] at h
      rcases List.mem_cons.mp h with h | h
      · subst hk; exact Or.inr h
      · exact Or.inl (List.mem_cons_of_mem _ h)
    · rw [odSet, if_neg hk] at h
      rcases List.mem_cons.mp h with h | h
      · subst h; exact Or.inl (List.mem_cons_self _ _)
      · rcases mem_odSet t k v p h with h | h
        · exact Or.inl (List.mem_cons_of_mem _ h)
        · exact Or.inr h

/-- Every layer-index-to-stage entry written by `addLayersRange` at stage
index `i` carries the value `i`. -/
theorem addLayersRange_stage_bound
    (cat : List (String × List (String × String)))
    (i2n : List (Nat × String)) (i : Nat) :
    ∀ (js : List Nat) (st : PipeLineStage) (l2s : List (Nat × Nat))
      (n2s : List (String × Nat))
      (out : PipeLineStage × List (Nat × Nat) × List (String × Nat)),
      addLayersRange cat i2n i js st l2s n2s = some out →
      ∀ p ∈ out.2.1, p ∈ l2s ∨ p.2 = i := by
  intro js
  induction js with
  | nil =>
    intro st l2s n2s out h p hp
    rw [addLayersRange] at h
    injection h with h
    subst h
    exact Or.inl hp
  | cons j rest ih =>
    intro st l2s n2s out h p hp
    rw [addLayersRange] at h
    revert h
    cases h1 : odGet i2n j with
    | none => intro h; exact Option.noConfusion h
    | some layer_name =>
      dsimp only
      cases h2 : odGet cat layer_name with
      | none => intro h; exact Option.noConfusion h
      | some plist =>
        dsimp only
        cases h3 : st.add_layer j layer_name plist with
        | none => intro h; exact Option.noConfusion h
        | some st₂ =>
          dsimp only
          intro h
          rcases ih st₂ (odSet l2s j i) (odSet n2s layer_name i) out h p hp with hin | hv
          · rcases mem_odSet l2s j i p hin with hin2 | heq
            · exact Or.inl hin2
            · exact Or.inr (by rw [heq])
          · exact Or.inr hv

theorem addSegments_stage_bound
    (cat : List (String × List (String × String)))
    (i2n : List (Nat × String)) (i : Nat) :
    ∀ (segs : List (Nat × Nat)) (st : PipeLineStage) (l2s : List (Nat × Nat))
      (n2s : List (String × Nat))
      (out : PipeLineStage × List (Nat × Nat) × List (String × Nat)),
      addSegments cat i2n i segs st l2s n2s = some out →
      ∀ p ∈ out.2.1, p ∈ l2s ∨ p.2 = i := by
  intro segs
  induction segs with
  | nil =>
    intro st l2s n2s out h p hp
    rw [addSegments] at h
    injection h with h
    subst h
    exact Or.inl hp
  | cons se rest ih =>
    intro st l2s n2s out h p hp
    obtain ⟨sb, eb⟩ := se
    rw [addSegments] at h
    revert h
    cases h1 : addLayersRange cat i2n i (List.range' sb (eb - sb))
        (st.add_segment sb eb) l2s n2s with
    | none => intro h; exact Option.noConfusion h
    | some r =>
      obtain ⟨st₃, l2s₃, n2s₃⟩ := r
      dsimp only
      intro h
      rcases ih st₃ l2s₃ n2s₃ out h p hp with hin | hv
      · exact addLayersRange_stage_bound cat i2n i _ _ _ _ _ h1 p hin
      · exact Or.inr hv

/-- `buildStages` only records stage indices between its running counter
and the counter plus the number of remaining per-stage segment lists. -/
theorem buildStages_stage_bound
    (cat : List (String × List (String × String)))
    (i2n : List (Nat × String)) :
    ∀ (segs : List (List (Nat × Nat))) (i : Nat) (stages : List PipeLineStage)
      (l2s : List (Nat × Nat)) (n2s : List (String × Nat))
      (out : List PipeLineStage × List (Nat × Nat) × List (String × Nat)),
      buildStages cat i2n segs i stages l2s n2s = some out →
      ∀ p ∈ out.2.1, p ∈ l2s ∨ (i ≤ p.2 ∧ p.2 < i + segs.length) := by
  intro segs
  induction segs with
  | nil =>
    intro i stages l2s n2s out h p hp
    rw [buildStages] at h
    injection h with h
    subst h
    exact Or.inl hp
  | cons seg rest ih =>
    intro i stages l2s n2s out h p hp
    rw [buildStages] at h
    revert h
    cases h1 : addSegments cat i2n i seg PipeLineStage.init l2s n2s with
    | none => intro h; exact Option.noConfusion h
    | some r =>
      obtain ⟨st, l2s₂, n2s₂⟩ := r
      dsimp only
      intro h
      rcases ih (i + 1) (stages ++ [st]) l2s₂ n2s₂ out h p hp with hin | hb
      · rcases addSegments_stage_bound cat i2n i seg PipeLineStage.init l2s n2s
            (st, l2s₂, n2s₂) h1 p hin with hin2 | hv
        · exact Or.inl hin2
        · refine Or.inr ⟨by omega, ?_⟩
          simp only [List.length_cons]
          omega
      · refine Or.inr ⟨by omega, ?_⟩
        simp only [List.length_cons]
        omega

/-- In a successfully built context, every recorded layer-to-stage value
is a physical stage index below `pp_degree`. -/
theorem build_l2s_bound (tparam : Option Nat) (pp vpp : Nat) (method : String)
    (cat : List (String × List (String × String)))
    (ctx : PipeLineSegmentContext) (hpp : 0 < pp)
    (hb : buildPipeLineSegmentContext tparam pp vpp method cat = some ctx) :
    ∀ p ∈ ctx.layer_index_to_stage, p.2 < pp := by
  unfold buildPipeLineSegmentContext at hb
  revert hb
  cases h1 : ctxTransformerLayerNum tparam cat with
  | none => intro hb; exact Option.noConfusion hb
  | some tln =>
    dsimp only
    cases h2 : indexLayersFold tln (cat.map Prod.fst) [] [] with
    | none => intro hb; exact Option.noConfusion hb
    | some r2 =>
      obtain ⟨n2i, i2n⟩ := r2
      dsimp only
      cases h3 : segmentFn method (tln + 3) pp vpp with
      | none => intro hb; exact Option.noConfusion hb
      | some stage_segments =>
        dsimp only
        cases h4 : buildStages cat i2n stage_segments 0 [] [] [] with
        | none => intro hb; exact Option.noConfusion hb
        | some r4 =>
          obtain ⟨stages, l2s, n2s⟩ := r4
          dsimp only
          cases h5 : buildAllNameMappings stages with
          | none => intro hb; exact Option.noConfusion hb
          | some stages₂ =>
            dsimp only
            intro hb
            injection hb with hb
            intro p hp
            have hlen : stage_segments.length = pp := by
              unfold segmentFn at h3
              revert h3
              cases h6 : segmentBoundaries method (tln + 3) (pp * vpp) with
              | none => intro h3; exact Option.noConfusion h3
              | some result =>
                intro h3
                injection h3 with h3
                rw [← h3]
                exact scatterRanges_length pp hpp _
            have hctx : ctx.layer_index_to_stage = l2s := by rw [← hb]
            rw [hctx] at hp
            rcases buildStages_stage_bound cat i2n stage_segments 0 [] [] []
                (stages, l2s, n2s) h4 p hp with hin | hbnd
            · cases hin
            · rw [hlen] at hbnd
              omega

theorem map_name_to_stage_lt (tparam : Option Nat) (pp vpp : Nat) (method : String)
    (cat : List (String × List (String × String)))
    (ctx : PipeLineSegmentContext) (hpp : 0 < pp)
    (hb : buildPipeLineSegmentContext tparam pp vpp method cat = some ctx)
    (nm : String) (s : Nat) (hms : ctx.map_name_to_stage nm = some s) : s < pp := by
  unfold PipeLineSegmentContext.map_name_to_stage at hms
  revert hms
  cases h1 : extract_layer_name nm with
  | none => intro hms; exact Option.noConfusion hms
  | some layer_name =>
    dsimp only
    cases h2 : odGet ctx.layer_name_to_index layer_name with
    | none => intro hms; exact Option.noConfusion hms
    | some idx =>
      dsimp only
      intro hms
      exact build_l2s_bound tparam pp vpp method cat ctx hpp hb (idx, s)
        (odGet_mem ctx.layer_index_to_stage idx s hms)

theorem join_set_perm {α : Type} :
    ∀ (bs : List (List α)) (s : Nat) (x : α), s < bs.length →
      (bs.set s (bs.getD s [] ++ [x])).flatten.Perm (bs.flatten ++ [x])
  | [], s, x, h => absurd h (by simp)
  | b :: t, 0, x, _ => by
    simp only [List.set_cons_zero, List.getD_cons_zero, List.flatten_cons]
    rw [List.append_assoc b [x] t.flatten, List.append_assoc b t.flatten [x]]
    exact List.Perm.append_left b List.perm_append_comm
  | b :: t, s + 1, x, h => by
    simp only [List.set_cons_succ, List.getD_cons_succ, List.flatten_cons]
    rw [List.append_assoc b t.flatten [x]]
    exact List.Perm.append_left b (join_set_perm t s x (by simp at h; omega))

theorem join_replicate_nil {α : Type} :
    ∀ n : Nat, (List.replicate n ([] : List α)).flatten = []
  | 0 => rfl
  | n + 1 => by
    simp only [List.replicate, List.flatten_cons, List.nil_append]
    exact join_replicate_nil n

theorem join_map_map {α β : Type} (f : α → β) :
    ∀ (L : List (List α)), (L.map (List.map f)).flatten = L.flatten.map f
  | [] => rfl
  | b :: t => by
    simp only [List.map_cons, List.flatten_cons, List.map_append]
    rw [join_map_map f t]

theorem join_map_pairSort_perm :
    ∀ (L : List (List (Nat × String))), (L.map pairSort).flatten.Perm L.flatten
  | [] => List.Perm.refl _
  | b :: t => by
    simp only [List.map_cons, List.flatten_cons]
    exact List.Perm.append (List.perm_insertionSort _ b) (join_map_pairSort_perm t)

theorem listCharLe_total : ∀ (a b : List Char),
    listCharLe a b = true ∨ listCharLe b a = true
  | [], _ => Or.inl rfl
  | _ :: _, [] => Or.inr rfl
  | a :: as, b :: bs => by
    by_cases h1 : a.toNat < b.toNat
    · left; rw [listCharLe, if_pos h1]
    · by_cases h2 : b.toNat < a.toNat
      · right; rw [listCharLe, if_pos h2]
      · rcases listCharLe_total as bs with h | h
        · left; rw [listCharLe, if_neg h1, if_neg h2]; exact h
        · right; rw [listCharLe, if_neg h2, if_neg h1]; exact h

theorem listCharLe_trans : ∀ (a b c : List Char),
    listCharLe a b = true → listCharLe b c = true → listCharLe a c = true
  | [], _, _, _, _ => rfl
  | _ :: _, [], _, h, _ => by rw [listCharLe] at h; cases h
  | _ :: _, _ :: _, [], _, h2 => by rw [listCharLe] at h2; cases h2
  | a :: as, b :: bs, c :: cs, h1, h2 => by
    rw [listCharLe] at h1 h2 ⊢
    by_cases hab : a.toNat < b.toNat
    · by_cases hbc : b.toNat < c.toNat
      · rw [if_pos (Nat.lt_trans hab hbc)]
      · by_cases hcb : c.toNat < b.toNat
        · rw [if_neg hbc, if_pos hcb] at h2; cases h2
        · have hbceq : b.toNat = c.toNat := by omega
          rw [if_pos (by omega : a.toNat < c.toNat)]
    · by_cases hba : b.toNat < a.toNat
      · rw [if_neg hab, if_pos hba] at h1
        cases h1
      · have habeq : a.toNat = b.toNat := by omega
        rw [if_neg hab, if_neg hba] at h1
        by_cases hbc : b.toNat < c.toNat
        · rw [if_pos (by omega : a.toNat < c.toNat)]
        · by_cases hcb : c.toNat < b.toNat
          · rw [if_neg hbc, if_pos hcb] at h2; cases h2
          · rw [if_neg hbc, if_neg hcb] at h2
            rw [if_neg (by omega : ¬a.toNat < c.toNat),
              if_neg (by omega : ¬c.toNat < a.toNat)]
            exact listCharLe_trans as bs cs h1 h2

theorem strLe_total (s t : String) : strLe s t = true ∨ strLe t s = true :=
  listCharLe_total s.data t.data

theorem strLe_trans (s t u : String) (h1 : strLe s t = true)
    (h2 : strLe t u = true) : strLe s u = true :=
  listCharLe_trans s.data t.data u.data h1 h2

/-- Python's `sorted` on `(layer_index, layer_name)` pairs produces a list
sorted by the lexicographic pair order. -/
theorem pairSort_sorted (l : List (Nat × String)) :
    List.Sorted (fun a b : Nat × String =>
      a.1 < b.1 ∨ (a.1 = b.1 ∧ strLe a.2 b.2 = true)) (pairSort l) := by
  haveI htot : IsTotal (Nat × String) (fun a b : Nat × String =>
      a.1 < b.1 ∨ (a.1 = b.1 ∧ strLe a.2 b.2 = true)) := ⟨by
    intro a b
    rcases Nat.lt_trichotomy a.1 b.1 with h | h | h
    · exact Or.inl (Or.inl h)
    · rcases strLe_total a.2 b.2 with hs | hs
      · exact Or.inl (Or.inr ⟨h, hs⟩)
      · exact Or.inr (Or.inr ⟨h.symm, hs⟩)
    · exact Or.inr (Or.inl h)⟩
  haveI htr : IsTrans (Nat × String) (fun a b : Nat × String =>
      a.1 < b.1 ∨ (a.1 = b.1 ∧ strLe a.2 b.2 = true)) := ⟨by
    intro a b c hab hbc
    rcases hab with h1 | ⟨h1, hs1⟩
    · rcases hbc with h2 | ⟨h2, _⟩
      · exact Or.inl (Nat.lt_trans h1 h2)
      · exact Or.inl (by omega)
    · rcases hbc with h2 | ⟨h2, hs2⟩
      · exact Or.inl (by omega)
      · exact Or.inr ⟨by omega, strLe_trans _ _ _ hs1 hs2⟩⟩
  exact List.sorted_insertionSort _ l

theorem chain'_imp_of_mem {α : Type} {R S : α → α → Prop} {P : α → Prop} :
    ∀ (l : List α), List.Chain' R l → (∀ a ∈ l, P a) →
      (∀ a b, P a → P b → R a b → S a b) → List.Chain' S l := by
  intro l
  induction l with
  | nil => intro _ _ _; exact List.chain'_nil
  | cons a t ih =>
    intro hc hP himp
    cases t with
    | nil => exact List.chain'_singleton a
    | cons b t2 =>
      rw [List.chain'_cons] at hc ⊢
      refine ⟨himp a b (hP a (by simp)) (hP b (by simp)) hc.1, ?_⟩
      exact ih hc.2 (fun x hx => hP x (List.mem_cons_of_mem a hx)) himp

/-- Soundness of the bucket-filling loop of `segment_layers`: it succeeds,
preserves the number of buckets, distributes exactly the looked-up
`(index, name)` pairs across the buckets, and every pair stored in a
bucket is either inherited or one of those pairs. -/
theorem segLayersFold_sound (ctx : PipeLineSegmentContext) :
    ∀ (names : List String) (buckets : List (List (Nat × String))),
      (∀ nm ∈ names, ∃ i s, odGet ctx.layer_name_to_index nm = some i ∧
          odGet ctx.layer_index_to_stage i = some s ∧ s < buckets.length) →
      ∃ buckets' pairs,
        segLayersFold ctx names buckets = some buckets' ∧
        buckets'.length = buckets.length ∧
        pairs.map Prod.snd = names ∧
        (∀ p ∈ pairs, odGet ctx.layer_name_to_index p.2 = some p.1) ∧
        buckets'.flatten.Perm (buckets.flatten ++ pairs) ∧
        (∀ b ∈ buckets', ∀ p ∈ b, p ∈ buckets.flatten ∨ p ∈ pairs) := by
  intro names
  induction names with
  | nil =>
    intro buckets _
    refine ⟨buckets, [], rfl, rfl, rfl, by simp, by simpa using List.Perm.refl buckets.flatten, ?_⟩
    intro b hb p hp
    exact Or.inl (List.mem_flatten.mpr ⟨b, hb, hp⟩)
  | cons nm rest ih =>
    intro buckets h
    obtain ⟨i, s, hni, his, hsl⟩ := h nm (by simp)
    obtain ⟨buckets', pairs, hfold, hlen, hsnd, hlook, hperm, hmem⟩ :=
      ih (buckets.set s ((buckets.getD s []) ++ [(i, nm)])) (by
        intro x hx
        obtain ⟨i2, s2, hx1, hx2, hx3⟩ := h x (List.mem_cons_of_mem _ hx)
        exact ⟨i2, s2, hx1, hx2, by rw [List.length_set]; exact hx3⟩)
    refine ⟨buckets', (i, nm) :: pairs, ?_, ?_, ?_, ?_, ?_, ?_⟩
    · have hstep : segLayersFold ctx (nm :: rest) buckets =
          segLayersFold ctx rest (buckets.set s ((buckets.getD s []) ++ [(i, nm)])) := by
        rw [segLayersFold, hni]
        dsimp only
        rw [his]
      rw [hstep]
      exact hfold
    · rw [hlen, List.length_set]
    · simp only [List.map_cons]
      rw [hsnd]
    · intro p hp
      rcases List.mem_cons.mp hp with rfl | hp
      · exact hni
      · exact hlook p hp
    · have hps : (buckets.set s ((buckets.getD s []) ++ [(i, nm)])).flatten.Perm
          (buckets.flatten ++ [(i, nm)]) := join_set_perm buckets s (i, nm) hsl
      have h1 := hperm.trans (hps.append_right pairs)
      rw [(List.append_cons buckets.flatten (i, nm) pairs).symm] at h1
      exact h1
    · intro b hb p hp
      rcases hmem b hb p hp with hin | hin
      · have hin2 := (join_set_perm buckets s (i, nm) hsl).mem_iff.mp hin
        rcases List.mem_append.mp hin2 with hin3 | hin3
        · exact Or.inl hin3
        · rcases List.mem_singleton.mp hin3 with rfl
          exact Or.inr (List.mem_cons_self _ _)
      · exact Or.inr (List.mem_cons_of_mem _ hin)

/-- `segment_layers` splits its input into `pp_degree` groups: a
permutation of the input, each group ascending in layer ordinal. -/
theorem segment_layers_partition (ctx : PipeLineSegmentContext) (names : List String)
    (h : ∀ nm ∈ names, ∃ i s, odGet ctx.layer_name_to_index nm = some i ∧
        odGet ctx.layer_index_to_stage i = some s ∧ s < ctx.pp_degree) :
    ∃ bs, ctx.segment_layers names = some bs ∧
      bs.length = ctx.pp_degree ∧
      bs.flatten.Perm names ∧
      ∀ b ∈ bs, List.Chain' (fun n1 n2 => ∀ i1 i2,
        odGet ctx.layer_name_to_index n1 = some i1 →
        odGet ctx.layer_name_to_index n2 = some i2 → i1 ≤ i2) b := by
  obtain ⟨buckets', pairs, hfold, hlen, hsnd, hlook, hperm, hmem⟩ :=
    segLayersFold_sound ctx names (List.replicate ctx.pp_degree []) (by
      intro nm hnm
      obtain ⟨i, s, h1, h2, h3⟩ := h nm hnm
      exact ⟨i, s, h1, h2, by rw [List.length_replicate]; exact h3⟩)
  refine ⟨buckets'.map (fun e => (pairSort e).map Prod.snd), ?_, ?_, ?_, ?_⟩
  · unfold PipeLineSegmentContext.segment_layers
    rw [hfold]
    rfl
  · rw [List.length_map, hlen, List.length_replicate]
  · have h0 : buckets'.map (fun e => (pairSort e).map Prod.snd) =
        (buckets'.map pairSort).map (List.map Prod.snd) := by
      rw [List.map_map]
      rfl
    rw [h0, join_map_map]
    have h2 : buckets'.flatten.Perm pairs := by
      have h2a := hperm
      rw [join_replicate_nil, List.nil_append] at h2a
      exact h2a
    have h3 := ((join_map_pairSort_perm buckets').trans h2).map Prod.snd
    rw [hsnd] at h3
    exact h3
  · intro b hb
    obtain ⟨e, he, rfl⟩ := List.mem_map.mp hb
    rw [List.chain'_map]
    have hchain : List.Chain' (fun a b : Nat × String =>
        a.1 < b.1 ∨ (a.1 = b.1 ∧ strLe a.2 b.2 = true)) (pairSort e) :=
      List.Pairwise.chain' (pairSort_sorted e)
    have hmem2 : ∀ p ∈ pairSort e, odGet ctx.layer_name_to_index p.2 = some p.1 := by
      intro p hp
      have hperm2 := List.perm_insertionSort (fun a b : Nat × String =>
        a.1 < b.1 ∨ (a.1 = b.1 ∧ strLe a.2 b.2 = true)) e
      have hpe : p ∈ e := hperm2.mem_iff.mp hp
      rcases hmem e he p hpe with hin | hin
      · rw [join_replicate_nil] at hin
        cases hin
      · exact hlook p hin
    refine chain'_imp_of_mem (pairSort e) hchain hmem2 ?_
    intro p q hP hQ hR i1 i2 hp1 hp2
    rw [hP] at hp1
    rw [hQ] at hp2
    injection hp1 with hp1
    injection hp2 with hp2
    subst hp1
    subst hp2
    rcases hR with hR | ⟨hR, _⟩
    · exact Nat.le_of_lt hR
    · exact Nat.le_of_eq hR

/-- **C8**: the `_segment` scatter loop assigns boundary range `i` to
physical stage `i % pp_degree` (round-robin); in a successfully built
context every `map_name_to_stage` result lies in `[0, pp_degree)`; and
`segment_layers` splits a batch of layer names into exactly `pp_degree`
groups whose union is a permutation of the input, each group ascending in
layer ordinal. -/
theorem claim_C8_round_robin :
    (∀ (pp : Nat) (rs : List (Nat × Nat)) (s : Nat), 0 < pp → s < pp →
      (scatterRanges pp rs).getD s [] =
        (rs.enum.filter (fun p => p.1 % pp == s)).map Prod.snd) ∧
    (∀ (tparam : Option Nat) (pp vpp : Nat) (method : String)
        (cat : List (String × List (String × String)))
        (ctx : PipeLineSegmentContext), 0 < pp →
      buildPipeLineSegmentContext tparam pp vpp method cat = some ctx →
      ∀ (nm : String) (s : Nat), ctx.map_name_to_stage nm = some s → s < pp) ∧
    (∀ (ctx : PipeLineSegmentContext) (names : List String),
      (∀ nm ∈ names, ∃ i s, odGet ctx.layer_name_to_index nm = some i ∧
          odGet ctx.layer_index_to_stage i = some s ∧ s < ctx.pp_degree) →
      ∃ bs, ctx.segment_layers names = some bs ∧
        bs.length = ctx.pp_degree ∧
        bs.flatten.Perm names ∧
        ∀ b ∈ bs, List.Chain' (fun n1 n2 => ∀ i1 i2,
          odGet ctx.layer_name_to_index n1 = some i1 →
          odGet ctx.layer_name_to_index n2 = some i2 → i1 ≤ i2) b) := by
  refine ⟨?_, ?_, ?_⟩
  · intro pp rs s hpp hs
    unfold scatterRanges
    rw [scatter_foldl_getD pp rs.enum (List.replicate pp []) s (by simp) hs,
      getD_replicate pp s ([] : List (Nat × Nat)), List.nil_append]
  · intro tparam pp vpp method cat ctx hpp hb nm s hms
    exact map_name_to_stage_lt tparam pp vpp method cat ctx hpp hb nm s hms
  · intro ctx names h
    exact segment_layers_partition ctx names h

theorem claim_C8_witness :
    (scatterRanges 2 [(0, 2), (2, 4), (4, 6), (6, 9)]).getD 1 [] = [(2, 4), (6, 9)] := by
  have h := claim_C8_round_robin.1 2 [(0, 2), (2, 4), (4, 6), (6, 9)] 1
    (by decide) (by decide)
  rw [h]
  decide

/-! ## C1: source-invariance of canonical naming -/

theorem listCharLe_antisymm : ∀ (a b : List Char),
    listCharLe a b = true → listCharLe b a = true → a = b
  | [], [], _, _ => rfl
  | [], _ :: _, _, h2 => by rw [listCharLe] at h2; cases h2
  | _ :: _, [], h1, _ => by rw [listCharLe] at h1; cases h1
  | a :: as, b :: bs, h1, h2 => by
    rw [listCharLe] at h1 h2
    by_cases hab : a.toNat < b.toNat
    · rw [if_neg (by omega : ¬b.toNat < a.toNat), if_pos hab] at h2
      cases h2
    · by_cases hba : b.toNat < a.toNat
      · rw [if_neg hab, if_pos hba] at h1
        cases h1
      · rw [if_neg hab, if_neg hba] at h1
        rw [if_neg hba, if_neg hab] at h2
        have hc : a = b := by
          have hn : a.toNat = b.toNat := by omega
          calc a = Char.ofNat a.toNat := (Char.ofNat_toNat a).symm
            _ = Char.ofNat b.toNat := by rw [hn]
            _ = b := Char.ofNat_toNat b
        rw [hc, listCharLe_antisymm as bs h1 h2]

theorem strLe_antisymm (s t : String) (h1 : strLe s t = true)
    (h2 : strLe t s = true) : s = t := by
  have hd := listCharLe_antisymm s.data t.data h1 h2
  cases s
  cases t
  dsimp only at hd
  rw [hd]

/-- Two lists sorted by tensor name that are permutations of each other
with pairwise-distinct tensor names are equal. -/
theorem sorted_perm_nodup_eq : ∀ (l1 l2 : List (String × String)),
    l1.Perm l2 →
    List.Sorted (fun a b : String × String => strLe a.2 b.2 = true) l1 →
    List.Sorted (fun a b : String × String => strLe a.2 b.2 = true) l2 →
    (l1.map Prod.snd).Nodup → l1 = l2
  | [], l2, hp, _, _, _ => (List.Perm.eq_nil hp.symm).symm
  | a :: t1, l2, hp, hs1, hs2, hnd => by
    cases l2 with
    | nil => exact absurd hp.eq_nil (by simp)
    | cons b t2 =>
      have hab : a = b := by
        by_contra hne
        have hma : a ∈ b :: t2 := hp.mem_iff.mp (List.mem_cons_self a t1)
        have hmb : b ∈ a :: t1 := hp.mem_iff.mpr (List.mem_cons_self b t2)
        have hat2 : a ∈ t2 := by
          rcases List.mem_cons.mp hma with h | h
          · exact absurd h hne
          · exact h
        have hbt1 : b ∈ t1 := by
          rcases List.mem_cons.mp hmb with h | h
          · exact absurd h.symm hne
          · exact h
        have hr1 : strLe a.2 b.2 = true := (List.sorted_cons.mp hs1).1 b hbt1
        have hr2 : strLe b.2 a.2 = true := (List.sorted_cons.mp hs2).1 a hat2
        have heq : a.2 = b.2 := strLe_antisymm _ _ hr1 hr2
        have hmem : a.2 ∈ t1.map Prod.snd := by
          rw [heq]
          exact List.mem_map.mpr ⟨b, hbt1, rfl⟩
        simp only [List.map_cons, List.nodup_cons] at hnd
        exact hnd.1 hmem
      subst hab
      have htl : t1 = t2 := sorted_perm_nodup_eq t1 t2 hp.cons_inv
        (List.sorted_cons.mp hs1).2 (List.sorted_cons.mp hs2).2
        (by simp only [List.map_cons, List.nodup_cons] at hnd; exact hnd.2)
      rw [htl]

/-- With pairwise-distinct tensor names, the tensor-name sort of a layer's
parameter list does not depend on the insertion order. -/
theorem sortByTensor_eq (l1 l2 : List (String × String)) (hperm : l1.Perm l2)
    (hnd : (l1.map Prod.snd).Nodup) : sortByTensor l1 = sortByTensor l2 := by
  haveI htot : IsTotal (String × String)
      (fun a b : String × String => strLe a.2 b.2 = true) :=
    ⟨fun a b => strLe_total a.2 b.2⟩
  haveI htr : IsTrans (String × String)
      (fun a b : String × String => strLe a.2 b.2 = true) :=
    ⟨fun _ _ _ h1 h2 => strLe_trans _ _ _ h1 h2⟩
  apply sorted_perm_nodup_eq
  · exact (List.perm_insertionSort _ l1).trans
      (hperm.trans (List.perm_insertionSort _ l2).symm)
  · exact List.sorted_insertionSort _ l1
  · exact List.sorted_insertionSort _ l2
  · exact (((List.perm_insertionSort _ l1).map Prod.snd).nodup_iff).mpr hnd

theorem odGet_sortByTensor_congr :
    ∀ (cat1 cat2 : List (String × List (String × String))),
      List.Forall₂ (fun a b => a.1 = b.1 ∧ sortByTensor a.2 = sortByTensor b.2)
        cat1 cat2 →
      ∀ k, (odGet cat1 k).map sortByTensor = (odGet cat2 k).map sortByTensor := by
  intro cat1 cat2 h
  induction h with
  | nil => intro k; rfl
  | @cons a b l1 l2 hab hrest ih =>
    intro k
    obtain ⟨a1, a2⟩ := a
    obtain ⟨b1, b2⟩ := b
    obtain ⟨h1, h2⟩ := hab
    simp only at h1 h2
    subst h1
    rw [odGet, odGet]
    by_cases hk : a1 = k
    · rw [if_pos hk, if_pos hk]
      simp only [Option.map_some']
      rw [h2]
    · rw [if_neg hk, if_neg hk]
      exact ih k

theorem forall₂_map_fst :
    ∀ {cat1 cat2 : List (String × List (String × String))},
      List.Forall₂ (fun a b => a.1 = b.1 ∧ sortByTensor a.2 = sortByTensor b.2)
        cat1 cat2 →
      cat1.map Prod.fst = cat2.map Prod.fst := by
  intro cat1 cat2 h
  induction h with
  | nil => rfl
  | cons hab _ ih =>
    simp only [List.map_cons]
    rw [hab.1, ih]

theorem seg_add_layer_congr (seg : PipeLineSegment) (ln : String)
    (p1 p2 : List (String × String)) (h : sortByTensor p1 = sortByTensor p2) :
    seg.add_layer ln p1 = seg.add_layer ln p2 := by
  unfold PipeLineSegment.add_layer PipeLinelayer.build
  rw [h]

theorem stage_add_layer_congr (st : PipeLineStage) (j : Nat) (ln : String)
    (p1 p2 : List (String × String)) (h : sortByTensor p1 = sortByTensor p2) :
    st.add_layer j ln p1 = st.add_layer j ln p2 := by
  unfold PipeLineStage.add_layer
  cases odGet st.layer_to_segment j with
  | none => rfl
  | some s =>
    dsimp only
    cases odGet st.segments s with
    | none => rfl
    | some seg =>
      dsimp only
      rw [seg_add_layer_congr seg ln p1 p2 h]

theorem addLayersRange_congr
    (cat1 cat2 : List (String × List (String × String)))
    (hcat : List.Forall₂
      (fun a b => a.1 = b.1 ∧ sortByTensor a.2 = sortByTensor b.2) cat1 cat2)
    (i2n : List (Nat × String)) (i : Nat) :
    ∀ (js : List Nat) (st : PipeLineStage) (l2s : List (Nat × Nat))
      (n2s : List (String × Nat)),
      addLayersRange cat1 i2n i js st l2s n2s =
        addLayersRange cat2 i2n i js st l2s n2s := by
  intro js
  induction js with
  | nil => intro st l2s n2s; rfl
  | cons j rest ih =>
    intro st l2s n2s
    rw [addLayersRange, addLayersRange]
    cases odGet i2n j with
    | none => rfl
    | some ln =>
      dsimp only
      have hA := odGet_sortByTensor_congr cat1 cat2 hcat ln
      cases h1 : odGet cat1 ln with
      | none =>
        rw [h1] at hA
        cases h2 : odGet cat2 ln with
        | none => rfl
        | some p2 =>
          rw [h2] at hA
          exact absurd hA (by simp)
      | some p1 =>
        rw [h1] at hA
        cases h2 : odGet cat2 ln with
        | none =>
          rw [h2] at hA
          exact absurd hA (by simp)
        | some p2 =>
          rw [h2] at hA
          simp only [Option.map_some', Option.some.injEq] at hA
          dsimp only
          rw [stage_add_layer_congr st j ln p1 p2 hA]
          cases st.add_layer j ln p2 with
          | none => rfl
          | some st₂ =>
            dsimp only
            exact ih st₂ (odSet l2s j i) (odSet n2s ln i)

theorem addSegments_congr
    (cat1 cat2 : List (String × List (String × String)))
    (hcat : List.Forall₂
      (fun a b => a.1 = b.1 ∧ sortByTensor a.2 = sortByTensor b.2) cat1 cat2)
    (i2n : List (Nat × String)) (i : Nat) :
    ∀ (segs : List (Nat × Nat)) (st : PipeLineStage) (l2s : List (Nat × Nat))
      (n2s : List (String × Nat)),
      addSegments cat1 i2n i segs st l2s n2s =
        addSegments cat2 i2n i segs st l2s n2s := by
  intro segs
  induction segs with
  | nil => intro st l2s n2s; rfl
  | cons se rest ih =>
    intro st l2s n2s
    obtain ⟨sb, eb⟩ := se
    rw [addSegments, addSegments,
      addLayersRange_congr cat1 cat2 hcat i2n i (List.range' sb (eb - sb))
        (st.add_segment sb eb) l2s n2s]
    cases addLayersRange cat2 i2n i (List.range' sb (eb - sb))
        (st.add_segment sb eb) l2s n2s with
    | none => rfl
    | some r =>
      obtain ⟨st₃, l2s₃, n2s₃⟩ := r
      dsimp only
      exact ih st₃ l2s₃ n2s₃

theorem buildStages_congr
    (cat1 cat2 : List (String × List (String × String)))
    (hcat : List.Forall₂
      (fun a b => a.1 = b.1 ∧ sortByTensor a.2 = sortByTensor b.2) cat1 cat2)
    (i2n : List (Nat × String)) :
    ∀ (segs : List (List (Nat × Nat))) (i : Nat) (stages : List PipeLineStage)
      (l2s : List (Nat × Nat)) (n2s : List (String × Nat)),
      buildStages cat1 i2n segs i stages l2s n2s =
        buildStages cat2 i2n segs i stages l2s n2s := by
  intro segs
  induction segs with
  | nil => intro i stages l2s n2s; rfl
  | cons seg rest ih =>
    intro i stages l2s n2s
    rw [buildStages, buildStages,
      addSegments_congr cat1 cat2 hcat i2n i seg PipeLineStage.init l2s n2s]
    cases addSegments cat2 i2n i seg PipeLineStage.init l2s n2s with
    | none => rfl
    | some r =>
      obtain ⟨st, l2s₂, n2s₂⟩ := r
      dsimp only
      exact ih (i + 1) (stages ++ [st]) l2s₂ n2s₂

/-- **C1** (counterexample): two catalogues with the same per-layer *set*
of `(raw_name, tensor_name)` pairs, differing only in insertion order,
whose built contexts record different canonical names for the same raw
parameter.  A raw name repeated with two tensor names plus a tensor-name
tie makes the stable sort preserve the differing orders, and the
`OrderedDict` overwrite then feeds the renamer different sequences. -/
theorem claim_C1_counterexample :
    ∃ cat1 cat2 : List (String × List (String × String)),
      cat1.map Prod.fst = cat2.map Prod.fst ∧
      (cat1.zip cat2).all (fun lp =>
        lp.1.2.all (fun p => lp.2.2.contains p) &&
        lp.2.2.all (fun p => lp.1.2.contains p)) = true ∧
      ((buildPipeLineSegmentContext none 1 1 "uniform" cat1).map
          (fun ctx => ctx.ctx_map_name "ernie.layers.0.a" "linear_4.weight")) ≠
        ((buildPipeLineSegmentContext none 1 1 "uniform" cat2).map
          (fun ctx => ctx.ctx_map_name "ernie.layers.0.a" "linear_4.weight")) := by
  refine ⟨[("ernie.embed_tokens", [("ernie.embed_tokens.weight", "embedding_5.weight")]),
      ("ernie.layers.0", [("ernie.layers.0.a", "linear_3.weight"),
                          ("ernie.layers.0.b", "linear_3.weight"),
                          ("ernie.layers.0.a", "linear_4.weight")]),
      ("ernie.norm", [("ernie.norm.weight", "layer_norm_5.weight")]),
      ("lm_head", [("lm_head.weight", "ernie_lm_head_7.weight")])],
    [("ernie.embed_tokens", [("ernie.embed_tokens.weight", "embedding_5.weight")]),
      ("ernie.layers.0", [("ernie.layers.0.b", "linear_3.weight"),
                          ("ernie.layers.0.a", "linear_3.weight"),
                          ("ernie.layers.0.a", "linear_4.weight")]),
      ("ernie.norm", [("ernie.norm.weight", "layer_norm_5.weight")]),
      ("lm_head", [("lm_head.weight", "ernie_lm_head_7.weight")])],
    by decide, by decide, by decide⟩

/-- **C1** (amended): source-invariance holds when, layer by layer, the
two catalogues list the same keys and permuted parameter pairs with
pairwise-distinct tensor names: the tensor-name sort then produces the
same parameter list, and the whole build — canonical names included — is
identical. -/
theorem claim_C1_source_invariance (tparam : Option Nat) (pp vpp : Nat)
    (method : String) (cat1 cat2 : List (String × List (String × String)))
    (hkeys : List.Forall₂ (fun l1 l2 => l1.1 = l2.1 ∧ l1.2.Perm l2.2 ∧
      (l1.2.map Prod.snd).Nodup) cat1 cat2) :
    buildPipeLineSegmentContext tparam pp vpp method cat1 =
      buildPipeLineSegmentContext tparam pp vpp method cat2 := by
  have hcat : List.Forall₂
      (fun a b => a.1 = b.1 ∧ sortByTensor a.2 = sortByTensor b.2) cat1 cat2 :=
    hkeys.imp (fun a b hab => ⟨hab.1, sortByTensor_eq _ _ hab.2.1 hab.2.2⟩)
  have hlen : cat1.length = cat2.length := hcat.length_eq
  have hfst : cat1.map Prod.fst = cat2.map Prod.fst := forall₂_map_fst hcat
  have htln : ctxTransformerLayerNum tparam cat1 =
      ctxTransformerLayerNum tparam cat2 := by
    unfold ctxTransformerLayerNum
    rw [hlen]
  unfold buildPipeLineSegmentContext
  rw [htln, hfst]
  cases ctxTransformerLayerNum tparam cat2 with
  | none => rfl
  | some tln =>
    dsimp only
    cases indexLayersFold tln (cat2.map Prod.fst) [] [] with
    | none => rfl
    | some r2 =>
      obtain ⟨n2i, i2n⟩ := r2
      dsimp only
      cases segmentFn method (tln + 3) pp vpp with
      | none => rfl
      | some stage_segments =>
        dsimp only
        rw [buildStages_congr cat1 cat2 hcat i2n stage_segments 0 [] [] []]

def testCat : List (String × List (String × String)) :=
  [("ernie.embed_tokens", [("ernie.embed_tokens.weight", "embedding_5.weight")]),
   ("ernie.layers.0", [("ernie.layers.0.self_attn.q_proj.weight", "linear_3.weight"),
                       ("ernie.layers.0.self_attn.q_proj.bias", "linear_3.bias")]),
   ("ernie.norm", [("ernie.norm.weight", "layer_norm_5.weight")]),
   ("lm_head", [("lm_head.weight", "ernie_lm_head_7.weight")])]

def testCatSw : List (String × List (String × String)) :=
  [("ernie.embed_tokens", [("ernie.embed_tokens.weight", "embedding_5.weight")]),
   ("ernie.layers.0", [("ernie.layers.0.self_attn.q_proj.bias", "linear_3.bias"),
                       ("ernie.layers.0.self_attn.q_proj.weight", "linear_3.weight")]),
   ("ernie.norm", [("ernie.norm.weight", "layer_norm_5.weight")]),
   ("lm_head", [("lm_head.weight", "ernie_lm_head_7.weight")])]

theorem claim_C1_witness :
    buildPipeLineSegmentContext none 2 1 "uniform" testCat =
      buildPipeLineSegmentContext none 2 1 "uniform" testCatSw := by
  refine claim_C1_source_invariance none 2 1 "uniform" testCat testCatSw ?_
  refine List.Forall₂.cons ⟨rfl, List.Perm.refl _, by decide⟩ ?_
  refine List.Forall₂.cons ⟨rfl, List.Perm.swap _ _ _, by decide⟩ ?_
  refine List.Forall₂.cons ⟨rfl, List.Perm.refl _, by decide⟩ ?_
  refine List.Forall₂.cons ⟨rfl, List.Perm.refl _, by decide⟩ ?_
  exact List.Forall₂.nil

end PPReshard
